import Mathlib

/-!
plank: the GORM paginator and the validators

A shallow embedding of `gorm_paginator.go` (type `GPaginator` with its methods
`Scopes`, `SetCount`, `SetNCount` and `Paginate`) and of `email.go`, `phone.go`
and `password.go` (types `Email`, `Phone` and `Password` with their methods
`Validate` and `Ok`), together with the properties of the pagination arithmetic
and of the validators.

Conventions of the embedding

* A method with a pointer receiver `p *GPaginator` is a function from the state
  of the receiver before the call to the state after it (paired with the
  returned value).
* Go's `int` and `int64` are both 64-bit two's complement integers; they are
  carried as `Int`, and `wrapInt` is applied wherever Go's arithmetic can wrap.
* A finite `float64` is carried as the rational number it denotes; `f64Round`
  is IEEE 754 binary64 rounding (round to nearest, ties to even).
* Go's `error` is carried as `Option GoError`, `none` being `nil`.
* A string is the sequence of its characters, and a regular expression of the
  source is its syntax tree, matched by `Regex.MatchString`.
-/

namespace Plank

/-! ## Go's integers -/

/-- Smallest value of Go's 64-bit `int` / `int64`. -/
def minInt : Int := -(2 ^ 63)

/-- Largest value of Go's 64-bit `int` / `int64`. -/
def maxInt : Int := 2 ^ 63 - 1

/-- Reduction of an exact integer result to Go's 64-bit two's complement `int`. -/
def wrapInt (x : Int) : Int := (x + 2 ^ 63) % 2 ^ 64 - 2 ^ 63

/-- Go's `a - b` on `int`. -/
def subInt (a b : Int) : Int := wrapInt (a - b)

/-- Go's `a * b` on `int`. -/
def mulInt (a b : Int) : Int := wrapInt (a * b)

/-! ## Go's float64, finite values -/

/-- Round to the nearest integer, ties to the even one. -/
def roundNE (q : ℚ) : ℤ :=
  let f := ⌊q⌋
  let r := q - f
  if r < 1 / 2 then f else if 1 / 2 < r then f + 1 else if f % 2 = 0 then f else f + 1

/-- Exponent of the unit in the last place of the binary64 format at `q`:
53 significant bits, and no exponent below that of the subnormal numbers. -/
def f64Exp (q : ℚ) : ℤ := max (Int.log 2 |q| - 52) (-1074)

/-- IEEE 754 binary64 rounding of an exact result (round to nearest, ties to
even). Overflow to an infinity needs a magnitude of at least `2 ^ 1024`, which
no quotient of two converted 64-bit integers reaches, and is not represented. -/
def f64Round (q : ℚ) : ℚ :=
  if q = 0 then 0 else (roundNE (q / (2 : ℚ) ^ f64Exp q) : ℚ) * (2 : ℚ) ^ f64Exp q

/-- Go's conversion `float64(n)` of an `int` or `int64`. -/
def f64OfInt (n : Int) : ℚ := f64Round (n : ℚ)

/-- Go's `x / y` on `float64`, for a divisor other than zero (`SetNCount`
divides by the converted `Limit`, which is at least 1 at that point). -/
def f64Div (x y : ℚ) : ℚ := f64Round (x / y)

/-- Go's `math.Ceil`; the result of rounding up to an integer is exact. -/
def f64Ceil (x : ℚ) : ℚ := ((⌈x⌉ : ℤ) : ℚ)

/-- Go's conversion `int(x)` of a `float64`: the fraction is discarded
(truncation towards zero). For a value outside the range of `int` Go leaves the
result to the implementation; the value taken here is the one amd64 produces. -/
def f64ToInt (x : ℚ) : Int :=
  let t : Int := if 0 ≤ x then ⌊x⌋ else ⌈x⌉
  if minInt ≤ t ∧ t ≤ maxInt then t else minInt

/-! ## Go's strings and errors -/

/-- Go's builtin `len` on a string: its length in bytes. -/
def len (s : String) : Nat := s.utf8ByteSize

/-- Go's `error` values, carried by their message; `nil` is `none` of
`Option GoError`. -/
abbrev GoError := String

/-! ## The query collaborator -/

/-- Modelled from the spec: the query builder `*gorm.DB` of the external
library, of which the paginator only uses the chainable `Offset`, `Limit` and
`Order`. A query is the record of the offset, the limit and the order
expression it carries. -/
structure DB where
  offset : Int
  limit : Int
  order : String
  deriving DecidableEq, Repr

/-- Modelled from the spec: `db.Offset(n)`, skip `n` records. -/
def DB.Offset (db : DB) (n : Int) : DB := { db with offset := n }

/-- Modelled from the spec: `db.Limit(n)`, cap the result at `n` records. -/
def DB.Limit (db : DB) (n : Int) : DB := { db with limit := n }

/-- Modelled from the spec: `db.Order(e)`, order the result by the expression `e`. -/
def DB.Order (db : DB) (e : String) : DB := { db with order := e }

/-! ## GPaginator -/

/-- The struct `GPaginator`; `α` is the type of the payload held in `Rows`
(Go's `any`). The field `Sort` is written `«Sort»`, the bare word being reserved. -/
structure GPaginator (α : Type) where
  Limit : Int
  Page : Int
  «Sort» : String
  Order : String
  TotalRows : Int
  TotalPages : Int
  Rows : α
  Offset : Int

/-- The method `Scopes`: the state of the receiver after the call, and the
returned closure. The closure holds the pointer `p`, so it reads the fields of
the paginator as they are when it is applied: its first argument is that state. -/
def GPaginator.Scopes {α : Type} (p : GPaginator α) :
    GPaginator α × (GPaginator α → DB → DB) :=
  let p := if p.Limit ≤ 0 then { p with Limit := 10 } else p
  (p, fun p db => ((db.Offset p.Offset).Limit p.Limit).Order (p.Order ++ " " ++ p.«Sort»))

/-- The method `SetNCount`: the state of the receiver after the call, and the
returned error. -/
def GPaginator.SetNCount {α : Type} (p : GPaginator α) (total : Int) :
    GPaginator α × Option GoError :=
  let p := if p.Limit ≤ 0 then { p with Limit := 10 } else p
  let p := if p.Page ≤ 0 then { p with Page := 1 } else p
  let p := { p with Offset := mulInt (subInt p.Page 1) p.Limit }
  let p := if len p.«Sort» < 1 then { p with «Sort» := "asc" } else p
  let p := if len p.Order < 1 then { p with Order := "id" } else p
  let p := { p with TotalRows := total }
  let p := { p with
    TotalPages := f64ToInt (f64Ceil (f64Div (f64OfInt p.TotalRows) (f64OfInt p.Limit))) }
  (p, none)

/-- The method `SetCount`. The argument `count` is the outcome of
`countCondition.Count(&total).Error`: the error of the count query, or the
total it stored. -/
def GPaginator.SetCount {α : Type} (p : GPaginator α) (count : Except GoError Int) :
    GPaginator α × Option GoError :=
  match count with
  | .error err => (p, some err)
  | .ok total => p.SetNCount total

/-- The method `Paginate`. -/
def GPaginator.Paginate {α : Type} (p : GPaginator α) (rows : α) : GPaginator α :=
  { p with Rows := rows }

/-- The zero value of `GPaginator`, with `rows` for the payload. -/
def GPaginator.zero {α : Type} (rows : α) : GPaginator α :=
  { Limit := 0, Page := 0, «Sort» := "", Order := "", TotalRows := 0, TotalPages := 0,
    Rows := rows, Offset := 0 }

/-! ## Go's regexp: syntax and matching -/

/-- The characters with a code point from `lo` to `hi`. -/
def asciiRange (lo hi : Nat) (c : Char) : Bool := decide (lo ≤ c.toNat) && decide (c.toNat ≤ hi)

/-- The class `[[:digit:]]`, the digits 0 to 9. -/
def isDigit (c : Char) : Bool := asciiRange 48 57 c

/-- The class `[[:upper:]]`, the letters A to Z. -/
def isUpper (c : Char) : Bool := asciiRange 65 90 c

/-- The class `[[:lower:]]`, the letters a to z. -/
def isLower (c : Char) : Bool := asciiRange 97 122 c

/-- The class `[[:alpha:]]`, the ASCII letters. -/
def isAlpha (c : Char) : Bool := isUpper c || isLower c

/-- The class `[[:alnum:]]`, the ASCII letters and digits. -/
def isAlnum (c : Char) : Bool := isDigit c || isAlpha c

/-- The class `[[:punct:]]`, the ASCII punctuation: the code points 33 to 47,
58 to 64, 91 to 96 and 123 to 126. -/
def isPunct (c : Char) : Bool :=
  asciiRange 33 47 c || asciiRange 58 64 c || asciiRange 91 96 c || asciiRange 123 126 c

/-- The bracket expression `[[:alnum:]\-\.]` of `rxMail`. -/
def isMailChar (c : Char) : Bool := isAlnum c || c == '-' || c == '.'

/-- The syntax of the regular expressions of the source: `^`, `$`, a class of
characters, concatenation, `a+` and `a{lo,hi}`; a group `(?:a)` is `a`. -/
inductive Regex where
  | beginText : Regex
  | endText : Regex
  | cls (p : Char → Bool) : Regex
  | cat (a b : Regex) : Regex
  | plus (a : Regex) : Regex
  | rep (a : Regex) (lo hi : Nat) : Regex

/-- All the ways of cutting a text in two. -/
def splits (w : List Char) : List (List Char × List Char) :=
  (List.range (w.length + 1)).map fun n => (w.take n, w.drop n)

/-- One or more pieces matched by `m` make up `w`; the first piece is taken
non-empty unless it is all of `w`, so a fuel of the length of `w` is enough. -/
def plusMatches (m : Bool → List Char → Bool → Bool) :
    Nat → Bool → List Char → Bool → Bool
  | 0, s, w, e => m s w e
  | n + 1, s, w, e =>
    m s w e || (splits w).any fun uv =>
      !uv.1.isEmpty && m s uv.1 (e && uv.2.isEmpty) && plusMatches m n false uv.2 e

/-- From `lo` to `hi` pieces matched by `m` make up `w`. -/
def repMatches (m : Bool → List Char → Bool → Bool) (lo : Nat) :
    Nat → Bool → List Char → Bool → Bool
  | 0, _, w, _ => decide (lo = 0) && w.isEmpty
  | hi + 1, s, w, e =>
    (decide (lo = 0) && w.isEmpty) || (splits w).any fun uv =>
      m s uv.1 (e && uv.2.isEmpty) && repMatches m (lo - 1) hi (s && uv.1.isEmpty) uv.2 e

/-- The regular expression matches the piece `w` of a text; `s` tells that the
piece starts at the beginning of the text and `e` that it stops at its end. -/
def Regex.matches : Regex → Bool → List Char → Bool → Bool
  | .beginText, s, w, _ => s && w.isEmpty
  | .endText, _, w, e => e && w.isEmpty
  | .cls p, _, w, _ => match w with
    | [c] => p c
    | _ => false
  | .cat a b, s, w, e => (splits w).any fun uv =>
      a.matches s uv.1 (e && uv.2.isEmpty) && b.matches (s && uv.1.isEmpty) uv.2 e
  | .plus a, s, w, e => plusMatches a.matches w.length s w e
  | .rep a lo hi, s, w, e => repMatches a.matches lo hi s w e

/-- Go's `(*Regexp).MatchString`: the text contains a match of the regular
expression. The text is the sequence of the characters of the string. -/
def Regex.MatchString (r : Regex) (s : String) : Bool :=
  (splits s.data).any fun pw => (splits pw.2).any fun wq =>
    r.matches pw.1.isEmpty wq.1 wq.2.isEmpty

/-- Go's `errors.New`. -/
def errorsNew (msg : String) : Option GoError := some msg

/-! ## Email -/

/-- The group `(?:[[:alnum:]]+[[:alnum:]\-\.]+[[:alnum:]])` of `rxMail`. -/
def mailPart : Regex :=
  .cat (.plus (.cls isAlnum)) (.cat (.plus (.cls isMailChar)) (.cls isAlnum))

/-- The regular expression `rxMail`. -/
def rxMail : Regex :=
  .cat .beginText (.cat (.plus mailPart) (.cat (.cls fun c => c == '@')
    (.cat (.plus mailPart) (.cat (.cls fun c => c == '.')
      (.cat (.rep (.cls isAlpha) 2 6) .endText)))))

/-- The type `Email`, a string. -/
abbrev Email := String

/-- The method `Email.Validate`. -/
def Email.Validate (e : Email) : Option GoError :=
  if !rxMail.MatchString e then errorsNew "not valid email" else none

/-- The method `Email.Ok`. -/
def Email.Ok (e : Email) : Bool := rxMail.MatchString e

/-- The texts of three or more letters, digits, `-` and `.` that begin and end
with a letter or a digit. -/
def mailLabel (w : List Char) : Bool :=
  decide (3 ≤ w.length) && w.all isMailChar && w.head?.any isAlnum && w.getLast?.any isAlnum

/-- The texts of two to six letters. -/
def mailTld (w : List Char) : Bool :=
  decide (2 ≤ w.length) && decide (w.length ≤ 6) && w.all isAlpha

/-- The part of a text before its first `@`. -/
def mailLocal (w : List Char) : List Char := w.takeWhile fun c => c != '@'

/-- The part of a text between its first `@` and the last `.` after it. -/
def mailDomain (w : List Char) : List Char :=
  ((((w.dropWhile fun c => c != '@').drop 1).reverse.dropWhile fun c => c != '.').drop 1).reverse

/-! ## Phone -/

/-- The regular expression `rxPhone`. -/
def rxPhone : Regex := .cat .beginText (.cat (.plus (.cls isDigit)) .endText)

/-- The type `Phone`, a string. -/
abbrev Phone := String

/-- The method `Phone.Validate`. -/
def Phone.Validate (p : Phone) : Option GoError :=
  if !rxPhone.MatchString p then errorsNew "not valid phone number" else none

/-- The method `Phone.Ok`. -/
def Phone.Ok (p : Phone) : Bool := rxPhone.MatchString p

/-! ## Password -/

/-- The regular expression `upper`. -/
def upper : Regex := .plus (.cls isUpper)

/-- The regular expression `lower`. -/
def lower : Regex := .plus (.cls isLower)

/-- The regular expression `punct`. -/
def punct : Regex := .plus (.cls isPunct)

/-- The regular expression `digit`. -/
def digit : Regex := .plus (.cls isDigit)

/-- The type `Password`, a string. -/
abbrev Password := String

/-- The method `Password.Validate`: each failed rule assigns the one variable `err`. -/
def Password.Validate (p : Password) : Option GoError :=
  let err : Option GoError := none
  let err := if !upper.MatchString p then
    errorsNew "password should contain one or more uppercase character" else err
  let err := if !lower.MatchString p then
    errorsNew "password should contain one or more lowercase character" else err
  let err := if !punct.MatchString p then
    errorsNew "password should contain one or more special character" else err
  let err := if !digit.MatchString p then
    errorsNew "password should contain one or more digit character" else err
  err

/-- The method `Password.Ok`. -/
def Password.Ok (p : Password) : Bool :=
  if !upper.MatchString p then false
  else if !lower.MatchString p then false
  else if !punct.MatchString p then false
  else digit.MatchString p

/-! ## Lemmas on Go's integers and strings -/

/-- Wrapping does not change the residue modulo `2 ^ 64`. -/
theorem wrapInt_modEq (x : Int) : wrapInt x ≡ x [ZMOD 2 ^ 64] := by
  unfold wrapInt Int.ModEq
  omega

/-- Two exact results with the same residue wrap to the same `int`. -/
theorem wrapInt_congr {x y : Int} (h : x ≡ y [ZMOD 2 ^ 64]) : wrapInt x = wrapInt y := by
  unfold wrapInt
  have h2 : (x + 2 ^ 63) % 2 ^ 64 = (y + 2 ^ 63) % 2 ^ 64 := Int.ModEq.add_right _ h
  rw [h2]

/-- A result within the range of `int` is not changed by wrapping. -/
theorem wrapInt_of_fits {x : Int} (h1 : minInt ≤ x) (h2 : x ≤ maxInt) : wrapInt x = x := by
  unfold minInt at h1
  unfold maxInt at h2
  unfold wrapInt
  omega

/-- Go computes `(a - b) * c` on `int` up to one final wrap. -/
theorem mulInt_subInt (a b c : Int) : mulInt (subInt a b) c = wrapInt ((a - b) * c) := by
  unfold mulInt subInt
  exact wrapInt_congr ((wrapInt_modEq (a - b)).mul_right c)

/-- Every character takes at least one byte of a string. -/
theorem utf8ByteSize_go_cons (c : Char) (cs : List Char) :
    0 < String.utf8ByteSize.go (c :: cs) := by
  have h := Char.utf8Size_pos c
  simp only [String.utf8ByteSize.go]
  omega

/-- The test `len(s) < 1` of the source holds of the empty string only. -/
theorem len_lt_one_iff (s : String) : len s < 1 ↔ s = "" := by
  rcases s with ⟨cs⟩
  cases cs with
  | nil => exact ⟨fun _ => rfl, fun _ => by decide⟩
  | cons c cs =>
    constructor
    · intro h
      have h2 := utf8ByteSize_go_cons c cs
      simp only [len, String.utf8ByteSize] at h
      omega
    · intro h
      exact absurd (congrArg String.data h) (by simp)

/-! ## Rounding to the nearest integer -/

/-- Rounding does not go below the floor. -/
theorem floor_le_roundNE (q : ℚ) : ⌊q⌋ ≤ roundNE q := by
  unfold roundNE
  simp only
  split_ifs <;> omega

/-- Rounding does not go below an integer below the argument. -/
theorem int_le_roundNE {q : ℚ} {z : ℤ} (h : (z : ℚ) ≤ q) : z ≤ roundNE q :=
  le_trans (Int.le_floor.mpr h) (floor_le_roundNE q)

/-- Rounding does not go above an integer above the argument. -/
theorem roundNE_le_int {q : ℚ} {z : ℤ} (h : q ≤ (z : ℚ)) : roundNE q ≤ z := by
  have hf : ⌊q⌋ ≤ z := Int.cast_le.mp (le_trans (Int.floor_le q) h)
  rcases hf.lt_or_eq with hlt | heq
  · unfold roundNE
    simp only
    split_ifs <;> omega
  · have hq : q = (z : ℚ) := le_antisymm h (heq ▸ Int.floor_le q)
    subst hq
    unfold roundNE
    simp

/-- Rounding down loses at most one half. -/
theorem sub_roundNE_le_half (q : ℚ) : q - (roundNE q : ℚ) ≤ 1 / 2 := by
  unfold roundNE
  simp only
  have h1 : q < (⌊q⌋ : ℚ) + 1 := Int.lt_floor_add_one q
  split_ifs with ha hb hc
  · linarith
  · push_cast
    linarith
  · linarith
  · push_cast
    linarith

/-! ## The binary64 grid -/

/-- Powers of two are positive. -/
theorem two_zpow_pos (e : ℤ) : (0 : ℚ) < (2 : ℚ) ^ e := zpow_pos (by norm_num) e

/-- A multiple of `2 ^ j` is a multiple of every smaller power of two. -/
theorem exists_grid (m : ℤ) {e j : ℤ} (h : e ≤ j) :
    ∃ k : ℤ, (m : ℚ) * (2 : ℚ) ^ j = (k : ℚ) * (2 : ℚ) ^ e := by
  refine ⟨m * 2 ^ (j - e).toNat, ?_⟩
  have h1 : ((2 : ℚ) ^ (j - e).toNat) = (2 : ℚ) ^ (j - e) := by
    rw [← zpow_natCast, Int.toNat_of_nonneg (by omega)]
  push_cast
  rw [h1, mul_assoc, ← zpow_add₀ (by norm_num : (2 : ℚ) ≠ 0)]
  congr 2
  omega

/-- Rounding to binary64 does not go above a multiple of the unit in the last
place that is above the argument. -/
theorem f64Round_le_of_le {q : ℚ} {m j : ℤ} (hj : f64Exp q ≤ j)
    (h : q ≤ (m : ℚ) * (2 : ℚ) ^ j) : f64Round q ≤ (m : ℚ) * (2 : ℚ) ^ j := by
  obtain ⟨k, hk⟩ := exists_grid m hj
  rw [hk] at h ⊢
  unfold f64Round
  split_ifs with h0
  · subst h0
    exact h
  · have hp := two_zpow_pos (f64Exp q)
    have h2 : q / (2 : ℚ) ^ f64Exp q ≤ (k : ℚ) := (div_le_iff₀ hp).mpr h
    have h3 : ((roundNE (q / (2 : ℚ) ^ f64Exp q) : ℤ) : ℚ) ≤ (k : ℚ) :=
      Int.cast_le.mpr (roundNE_le_int h2)
    exact mul_le_mul_of_nonneg_right h3 hp.le

/-- Rounding to binary64 does not go below a multiple of the unit in the last
place that is below the argument. -/
theorem le_f64Round_of_le {q : ℚ} {m j : ℤ} (hj : f64Exp q ≤ j)
    (h : (m : ℚ) * (2 : ℚ) ^ j ≤ q) : (m : ℚ) * (2 : ℚ) ^ j ≤ f64Round q := by
  obtain ⟨k, hk⟩ := exists_grid m hj
  rw [hk] at h ⊢
  unfold f64Round
  split_ifs with h0
  · subst h0
    exact h
  · have hp := two_zpow_pos (f64Exp q)
    have h2 : (k : ℚ) ≤ q / (2 : ℚ) ^ f64Exp q := (le_div_iff₀ hp).mpr h
    have h3 : (k : ℚ) ≤ ((roundNE (q / (2 : ℚ) ^ f64Exp q) : ℤ) : ℚ) :=
      Int.cast_le.mpr (int_le_roundNE h2)
    exact mul_le_mul_of_nonneg_right h3 hp.le

/-- A multiple of its own unit in the last place is a binary64 number: rounding
leaves it as it is. -/
theorem f64Round_eq_self {m j : ℤ} (hj : f64Exp ((m : ℚ) * (2 : ℚ) ^ j) ≤ j) :
    f64Round ((m : ℚ) * (2 : ℚ) ^ j) = (m : ℚ) * (2 : ℚ) ^ j :=
  le_antisymm (f64Round_le_of_le hj le_rfl) (le_f64Round_of_le hj le_rfl)

/-- The unit in the last place of a positive number below `2 ^ (53 + j)` is at
most `2 ^ j`. -/
theorem f64Exp_le_of_lt {q : ℚ} {j : ℤ} (hq : 0 < q) (hj : -1074 ≤ j)
    (h : q < (2 : ℚ) ^ (53 + j)) : f64Exp q ≤ j := by
  have h1 : Int.log 2 q < 53 + j := by
    have := (Int.lt_zpow_iff_log_lt (R := ℚ) (b := 2) (by norm_num) hq).mp (by exact_mod_cast h)
    exact this
  unfold f64Exp
  rw [abs_of_pos hq]
  exact max_le (by omega) hj

/-- In the normal range the scaled significand is at least `2 ^ 52`. -/
theorem normal_le {q : ℚ} (hq : (2 : ℚ) ^ (-1022 : ℤ) ≤ q) :
    ((2 ^ 52 : ℤ) : ℚ) * (2 : ℚ) ^ f64Exp q ≤ q := by
  have hpos : 0 < q := lt_of_lt_of_le (two_zpow_pos _) hq
  have h1 : (-1022 : ℤ) ≤ Int.log 2 q :=
    (Int.zpow_le_iff_le_log (R := ℚ) (b := 2) (by norm_num) hpos).mp (by exact_mod_cast hq)
  have h2 : f64Exp q = Int.log 2 q - 52 := by
    unfold f64Exp
    rw [abs_of_pos hpos]
    exact max_eq_left (by omega)
  have h3 : ((2 : ℕ) : ℚ) ^ Int.log 2 q ≤ q := Int.zpow_log_le_self (by norm_num) hpos
  have h4 : ((2 ^ 52 : ℤ) : ℚ) * (2 : ℚ) ^ f64Exp q = (2 : ℚ) ^ Int.log 2 q := by
    rw [h2]
    have : ((2 ^ 52 : ℤ) : ℚ) = (2 : ℚ) ^ (52 : ℤ) := by norm_num
    rw [this, ← zpow_add₀ (by norm_num : (2 : ℚ) ≠ 0)]
    congr 1
    omega
  rw [h4]
  exact_mod_cast h3

/-! ## Conversions between `int` and `float64` -/

/-- Zero is a binary64 number. -/
theorem f64Round_zero : f64Round 0 = 0 := by
  unfold f64Round
  simp

/-- The integers from 0 to `2 ^ 53` are binary64 numbers: `float64(t)` is exact. -/
theorem f64OfInt_exact {t : ℤ} (h0 : 0 ≤ t) (h : t ≤ 2 ^ 53) : f64OfInt t = (t : ℚ) := by
  unfold f64OfInt
  rcases h0.lt_or_eq with hpos | hz
  · have hposq : (0 : ℚ) < (t : ℚ) := Int.cast_pos.mpr hpos
    rcases h.lt_or_eq with hlt | heq
    · have e1 : (t : ℚ) = (t : ℚ) * (2 : ℚ) ^ (0 : ℤ) := by simp
      have hltq : (t : ℚ) < (2 : ℚ) ^ (53 + 0 : ℤ) := by
        have : (t : ℚ) < ((2 ^ 53 : ℤ) : ℚ) := Int.cast_lt.mpr hlt
        norm_num at this ⊢
        exact this
      have hj : f64Exp ((t : ℚ) * (2 : ℚ) ^ (0 : ℤ)) ≤ 0 := by
        rw [← e1]
        exact f64Exp_le_of_lt hposq (by norm_num) hltq
      rw [e1]
      exact f64Round_eq_self hj
    · have e1 : (t : ℚ) = ((2 ^ 52 : ℤ) : ℚ) * (2 : ℚ) ^ (1 : ℤ) := by
        rw [heq]
        norm_num
      have hj : f64Exp (((2 ^ 52 : ℤ) : ℚ) * (2 : ℚ) ^ (1 : ℤ)) ≤ 1 := by
        refine f64Exp_le_of_lt ?_ (by norm_num) ?_
        · norm_num
        · norm_num
      rw [e1]
      exact f64Round_eq_self hj
  · rw [← hz]
    simpa using f64Round_zero

/-- An `int` above `2 ^ 53` converts to a `float64` from `2 ^ 53` to `2 ^ 63`. -/
theorem f64OfInt_big {l : ℤ} (h1 : 2 ^ 53 < l) (h2 : l < 2 ^ 63) :
    (2 : ℚ) ^ (53 : ℤ) ≤ f64OfInt l ∧ f64OfInt l ≤ (2 : ℚ) ^ (63 : ℤ) := by
  have h1q : ((2 ^ 53 : ℤ) : ℚ) < (l : ℚ) := Int.cast_lt.mpr h1
  have h2q : (l : ℚ) < ((2 ^ 63 : ℤ) : ℚ) := Int.cast_lt.mpr h2
  have hpos : (0 : ℚ) < (l : ℚ) := lt_trans (by norm_num) h1q
  have hj : f64Exp (l : ℚ) ≤ 10 := by
    refine f64Exp_le_of_lt hpos (by norm_num) ?_
    norm_num at h2q ⊢
    exact h2q
  have e53 : (2 : ℚ) ^ (53 : ℤ) = ((2 ^ 43 : ℤ) : ℚ) * (2 : ℚ) ^ (10 : ℤ) := by norm_num
  have e63 : (2 : ℚ) ^ (63 : ℤ) = ((2 ^ 53 : ℤ) : ℚ) * (2 : ℚ) ^ (10 : ℤ) := by norm_num
  unfold f64OfInt
  constructor
  · rw [e53]
    refine le_f64Round_of_le hj ?_
    rw [← e53]
    norm_num at h1q ⊢
    exact h1q.le
  · rw [e63]
    refine f64Round_le_of_le hj ?_
    rw [← e63]
    norm_num at h2q ⊢
    exact h2q.le

/-- An integer within the range of `int` converts back to itself. -/
theorem f64ToInt_intCast {c : ℤ} (h1 : minInt ≤ c) (h2 : c ≤ maxInt) :
    f64ToInt (c : ℚ) = c := by
  unfold f64ToInt
  simp only [Int.floor_intCast, Int.ceil_intCast, ite_self]
  rw [if_pos ⟨h1, h2⟩]

/-! ## The rounded quotient and its ceiling -/

/-- A positive number of the normal range does not round to zero. -/
theorem f64Round_pos {q : ℚ} (hq : (2 : ℚ) ^ (-1022 : ℤ) ≤ q) : 0 < f64Round q := by
  have h1 := le_f64Round_of_le (le_refl (f64Exp q)) (normal_le hq)
  have h2 : (0 : ℚ) < ((2 ^ 52 : ℤ) : ℚ) * (2 : ℚ) ^ f64Exp q :=
    mul_pos (by norm_num) (two_zpow_pos _)
  exact lt_of_lt_of_le h2 h1

/-- The quotient of two integers from 1 to `2 ^ 53` does not round down to an
integer below it: the numerator would have to exceed `2 ^ 53`. -/
theorem lt_f64Round_div {t l n : ℤ} (ht0 : 0 < t) (ht : t ≤ 2 ^ 53) (hl1 : 1 ≤ l)
    (hl : l ≤ 2 ^ 53) (hn : (n : ℚ) < (t : ℚ) / (l : ℚ)) :
    (n : ℚ) < f64Round ((t : ℚ) / (l : ℚ)) := by
  by_contra hcon
  push_neg at hcon
  have hlq : (0 : ℚ) < (l : ℚ) := Int.cast_pos.mpr (by omega)
  have htq : (1 : ℚ) ≤ (t : ℚ) := by exact_mod_cast ht0
  have ht53 : (t : ℚ) ≤ (2 : ℚ) ^ 53 := by exact_mod_cast ht
  have hl53 : (l : ℚ) ≤ (2 : ℚ) ^ 53 := by exact_mod_cast hl
  set x : ℚ := (t : ℚ) / (l : ℚ) with hx
  have hxpos : 0 < x := div_pos (by linarith) hlq
  -- the quotient is in the normal range
  have hnorm : (2 : ℚ) ^ (-1022 : ℤ) ≤ x := by
    have h1 : (2 : ℚ) ^ (-1022 : ℤ) ≤ 1 / (2 : ℚ) ^ 53 := by norm_num
    have h2 : 1 / (2 : ℚ) ^ 53 ≤ x := by
      rw [hx, le_div_iff₀ hlq]
      have h3 : 1 / (2 : ℚ) ^ 53 * (l : ℚ) ≤ 1 := by
        rw [div_mul_eq_mul_div, one_mul, div_le_one (by norm_num)]
        exact hl53
      linarith
    exact le_trans h1 h2
  set u : ℚ := (2 : ℚ) ^ f64Exp x with hu
  have hupos : 0 < u := two_zpow_pos _
  have hN := normal_le hnorm
  have hlow := le_f64Round_of_le (le_refl (f64Exp x)) hN
  -- the rounded quotient is within half a unit of the quotient
  have hhalf : x - f64Round x ≤ u / 2 := by
    have h := sub_roundNE_le_half (x / u)
    unfold f64Round
    rw [if_neg hxpos.ne']
    have h3 : x = x / u * u := by field_simp
    nlinarith
  -- the quotient is at least `1 / l` above the integer `n`
  have hnl : n * l + 1 ≤ t := by
    have h1 : (n : ℚ) * (l : ℚ) < (t : ℚ) := (lt_div_iff₀ hlq).mp hn
    have h2 : n * l < t := by exact_mod_cast h1
    omega
  have hnlq : (n : ℚ) * (l : ℚ) + 1 ≤ (t : ℚ) := by exact_mod_cast hnl
  have hgap : 1 / (l : ℚ) ≤ x - (n : ℚ) := by
    rw [hx, div_le_iff₀ hlq]
    have h3 : ((t : ℚ) / (l : ℚ) - (n : ℚ)) * (l : ℚ) = (t : ℚ) - (n : ℚ) * (l : ℚ) := by
      field_simp
      ring
    rw [h3]
    linarith
  have h2lu : 2 ≤ (l : ℚ) * u := by
    have h4 : 1 / (l : ℚ) ≤ u / 2 := by linarith
    rw [div_le_iff₀ hlq] at h4
    linarith
  have hn52 : ((2 ^ 52 : ℤ) : ℚ) * u ≤ (n : ℚ) := le_trans hlow hcon
  have h5 : ((2 ^ 52 : ℤ) : ℚ) * u * (l : ℚ) ≤ (n : ℚ) * (l : ℚ) :=
    mul_le_mul_of_nonneg_right hn52 hlq.le
  have h6 : ((2 ^ 52 : ℤ) : ℚ) * 2 ≤ ((2 ^ 52 : ℤ) : ℚ) * u * (l : ℚ) := by
    have : ((2 ^ 52 : ℤ) : ℚ) * u * (l : ℚ) = ((2 ^ 52 : ℤ) : ℚ) * ((l : ℚ) * u) := by ring
    rw [this]
    exact mul_le_mul_of_nonneg_left h2lu (by norm_num)
  have h7 : ((2 ^ 52 : ℤ) : ℚ) * 2 = (2 : ℚ) ^ 53 := by norm_num
  linarith

/-- The quotient of two integers from 1 to `2 ^ 53`, rounded to binary64, has
the ceiling of the exact quotient. -/
theorem ceil_f64Round_div {t l : ℤ} (ht0 : 0 < t) (ht : t ≤ 2 ^ 53) (hl1 : 1 ≤ l)
    (hl : l ≤ 2 ^ 53) : ⌈f64Round ((t : ℚ) / (l : ℚ))⌉ = ⌈(t : ℚ) / (l : ℚ)⌉ := by
  have hlq : (1 : ℚ) ≤ (l : ℚ) := by exact_mod_cast hl1
  have htq : (0 : ℚ) < (t : ℚ) := by exact_mod_cast ht0
  have ht53 : (t : ℚ) ≤ (2 : ℚ) ^ 53 := by exact_mod_cast ht
  have hxpos : (0 : ℚ) < (t : ℚ) / (l : ℚ) := div_pos htq (by linarith)
  have hx53 : (t : ℚ) / (l : ℚ) ≤ (2 : ℚ) ^ 53 :=
    le_trans (div_le_self htq.le hlq) ht53
  rw [Int.ceil_eq_iff]
  constructor
  · have h := lt_f64Round_div (n := ⌈(t : ℚ) / (l : ℚ)⌉ - 1) ht0 ht hl1 hl (by
      push_cast
      linarith [Int.ceil_lt_add_one ((t : ℚ) / (l : ℚ))])
    push_cast at h
    exact h
  · have hc : (t : ℚ) / (l : ℚ) ≤ ((⌈(t : ℚ) / (l : ℚ)⌉ : ℤ) : ℚ) := Int.le_ceil _
    rcases hx53.lt_or_eq with hlt | heq
    · have hj : f64Exp ((t : ℚ) / (l : ℚ)) ≤ 0 :=
        f64Exp_le_of_lt hxpos (by norm_num) (by norm_num; exact hlt)
      have h := f64Round_le_of_le (m := ⌈(t : ℚ) / (l : ℚ)⌉) hj (by simpa using hc)
      simpa using h
    · have e1 : (t : ℚ) / (l : ℚ) = ((2 ^ 52 : ℤ) : ℚ) * (2 : ℚ) ^ (1 : ℤ) := by
        rw [heq]
        norm_num
      have hj : f64Exp (((2 ^ 52 : ℤ) : ℚ) * (2 : ℚ) ^ (1 : ℤ)) ≤ 1 := by
        refine f64Exp_le_of_lt ?_ (by norm_num) ?_
        · norm_num
        · norm_num
      have h := f64Round_eq_self hj
      rw [← e1] at h
      rw [h]
      exact hc

/-- The expression `int(math.Ceil(float64(t) / float64(l)))` of `SetNCount` is
the ceiling of the exact quotient for `0 <= t <= 2 ^ 53` and an `int` `l >= 1`. -/
theorem totalPages_exact {t l : ℤ} (ht0 : 0 ≤ t) (ht : t ≤ 2 ^ 53) (hl1 : 1 ≤ l)
    (hl : l ≤ maxInt) :
    f64ToInt (f64Ceil (f64Div (f64OfInt t) (f64OfInt l))) = ⌈(t : ℚ) / (l : ℚ)⌉ := by
  have hlq : (1 : ℚ) ≤ (l : ℚ) := by exact_mod_cast hl1
  have ht0q : (0 : ℚ) ≤ (t : ℚ) := by exact_mod_cast ht0
  have ht53 : (t : ℚ) ≤ (2 : ℚ) ^ 53 := by exact_mod_cast ht
  -- the exact ceiling is within the range of `int`
  have hc0 : 0 ≤ ⌈(t : ℚ) / (l : ℚ)⌉ := Int.ceil_nonneg (div_nonneg ht0q (by linarith))
  have hc53 : ⌈(t : ℚ) / (l : ℚ)⌉ ≤ 2 ^ 53 := by
    rw [Int.ceil_le]
    push_cast
    exact le_trans (div_le_self ht0q hlq) ht53
  have hrange : f64ToInt ((⌈(t : ℚ) / (l : ℚ)⌉ : ℤ) : ℚ) = ⌈(t : ℚ) / (l : ℚ)⌉ :=
    f64ToInt_intCast (by unfold minInt; omega) (by unfold maxInt; omega)
  suffices h : ⌈f64Div (f64OfInt t) (f64OfInt l)⌉ = ⌈(t : ℚ) / (l : ℚ)⌉ by
    unfold f64Ceil
    rw [h, hrange]
  rw [f64OfInt_exact ht0 ht]
  unfold f64Div
  rcases ht0.lt_or_eq with htpos | htz
  · have htq : (1 : ℚ) ≤ (t : ℚ) := by exact_mod_cast htpos
    by_cases hl53 : l ≤ 2 ^ 53
    · rw [f64OfInt_exact (by omega) hl53]
      exact ceil_f64Round_div htpos ht hl1 hl53
    · -- a divisor above `2 ^ 53` is rounded, and both quotients are in `(0, 1]`
      push_neg at hl53
      have hl63 : l < 2 ^ 63 := by
        unfold maxInt at hl
        omega
      obtain ⟨hb1, hb2⟩ := f64OfInt_big hl53 hl63
      have hbpos : (0 : ℚ) < f64OfInt l := lt_of_lt_of_le (by norm_num) hb1
      have hlq53 : (2 : ℚ) ^ 53 < (l : ℚ) := by exact_mod_cast hl53
      have hx1 : (t : ℚ) / f64OfInt l ≤ 1 := by
        rw [div_le_one hbpos]
        norm_num at hb1
        linarith
      have hxpos : 0 < (t : ℚ) / f64OfInt l := div_pos (by linarith) hbpos
      have hxn : (2 : ℚ) ^ (-1022 : ℤ) ≤ (t : ℚ) / f64OfInt l := by
        rw [le_div_iff₀ hbpos]
        have h3 : (2 : ℚ) ^ (-1022 : ℤ) * f64OfInt l ≤ (2 : ℚ) ^ (-1022 : ℤ) * (2 : ℚ) ^ (63 : ℤ) :=
          mul_le_mul_of_nonneg_left hb2 (two_zpow_pos _).le
        have h4 : (2 : ℚ) ^ (-1022 : ℤ) * (2 : ℚ) ^ (63 : ℤ) ≤ 1 := by
          rw [← zpow_add₀ (by norm_num : (2 : ℚ) ≠ 0)]
          exact zpow_le_one_of_nonpos₀ (by norm_num) (by norm_num)
        linarith
      have hj : f64Exp ((t : ℚ) / f64OfInt l) ≤ 0 :=
        f64Exp_le_of_lt hxpos (by norm_num) (lt_of_le_of_lt hx1 (by norm_num))
      have hup := f64Round_le_of_le (m := 1) hj (by simpa using hx1)
      have hlo := f64Round_pos hxn
      have e1 : ⌈f64Round ((t : ℚ) / f64OfInt l)⌉ = 1 := by
        rw [Int.ceil_eq_iff]
        constructor
        · simpa using hlo
        · simpa using hup
      have e2 : ⌈(t : ℚ) / (l : ℚ)⌉ = 1 := by
        rw [Int.ceil_eq_iff]
        constructor
        · simpa using div_pos (by linarith : (0 : ℚ) < (t : ℚ)) (by linarith : (0 : ℚ) < (l : ℚ))
        · push_cast
          rw [div_le_one (by linarith)]
          linarith
      rw [e1, e2]
  · rw [← htz]
    simp [f64Round_zero]

/-- The ceiling of `t / l` is the least integer `n` with `n * l >= t`. -/
theorem ceil_div_least (t : ℤ) {l : ℤ} (hl1 : 1 ≤ l) :
    t ≤ ⌈(t : ℚ) / (l : ℚ)⌉ * l ∧ ∀ n : ℤ, t ≤ n * l → ⌈(t : ℚ) / (l : ℚ)⌉ ≤ n := by
  have hlq : (0 : ℚ) < (l : ℚ) := by exact_mod_cast (by omega : 0 < l)
  constructor
  · have h := Int.le_ceil ((t : ℚ) / (l : ℚ))
    rw [div_le_iff₀ hlq] at h
    exact_mod_cast h
  · intro n hn
    rw [Int.ceil_le, div_le_iff₀ hlq]
    exact_mod_cast hn

/-! ## SetNCount: the normalised fields -/

/-- The fields of the receiver after `SetNCount`, one by one. -/
theorem SetNCount_fields {α : Type} (p : GPaginator α) (total : Int) :
    (p.SetNCount total).1 =
      { Limit := if p.Limit ≤ 0 then 10 else p.Limit
        Page := if p.Page ≤ 0 then 1 else p.Page
        «Sort» := if len p.«Sort» < 1 then "asc" else p.«Sort»
        Order := if len p.Order < 1 then "id" else p.Order
        TotalRows := total
        TotalPages := f64ToInt (f64Ceil (f64Div (f64OfInt total)
          (f64OfInt (if p.Limit ≤ 0 then 10 else p.Limit))))
        Rows := p.Rows
        Offset := mulInt (subInt (if p.Page ≤ 0 then 1 else p.Page) 1)
          (if p.Limit ≤ 0 then 10 else p.Limit) } := by
  by_cases h1 : p.Limit ≤ 0 <;> by_cases h2 : p.Page ≤ 0 <;>
    by_cases h3 : len p.«Sort» < 1 <;> by_cases h4 : len p.Order < 1 <;>
    simp [GPaginator.SetNCount, h1, h2, h3, h4]

/-- `Limit` after `SetNCount`. -/
theorem SetNCount_Limit_eq {α : Type} (p : GPaginator α) (total : Int) :
    (p.SetNCount total).1.Limit = (if p.Limit ≤ 0 then 10 else p.Limit) := by
  rw [SetNCount_fields]

/-- `Page` after `SetNCount`. -/
theorem SetNCount_Page_eq {α : Type} (p : GPaginator α) (total : Int) :
    (p.SetNCount total).1.Page = (if p.Page ≤ 0 then 1 else p.Page) := by
  rw [SetNCount_fields]

/-- `Sort` after `SetNCount`. -/
theorem SetNCount_Sort_eq {α : Type} (p : GPaginator α) (total : Int) :
    (p.SetNCount total).1.«Sort» = (if p.«Sort» = "" then "asc" else p.«Sort») := by
  rw [SetNCount_fields]
  simp only [len_lt_one_iff]

/-- `Order` after `SetNCount`. -/
theorem SetNCount_Order_eq {α : Type} (p : GPaginator α) (total : Int) :
    (p.SetNCount total).1.Order = (if p.Order = "" then "id" else p.Order) := by
  rw [SetNCount_fields]
  simp only [len_lt_one_iff]

/-- `Offset` after `SetNCount`. -/
theorem SetNCount_Offset_eq {α : Type} (p : GPaginator α) (total : Int) :
    (p.SetNCount total).1.Offset
      = wrapInt (((if p.Page ≤ 0 then 1 else p.Page) - 1)
          * (if p.Limit ≤ 0 then 10 else p.Limit)) := by
  rw [SetNCount_fields]
  exact mulInt_subInt _ _ _

/-- `TotalPages` after `SetNCount`. -/
theorem SetNCount_TotalPages_eq {α : Type} (p : GPaginator α) (total : Int) :
    (p.SetNCount total).1.TotalPages
      = f64ToInt (f64Ceil (f64Div (f64OfInt total)
          (f64OfInt (if p.Limit ≤ 0 then 10 else p.Limit)))) := by
  rw [SetNCount_fields]

/-! ## SetNCount: the number of pages -/

/-- The integer `2 ^ 53 + 1` lies halfway between two binary64 numbers and is
rounded to the even one, `2 ^ 53`. -/
theorem f64OfInt_two_pow_53_succ : f64OfInt 9007199254740993 = 9007199254740992 := by
  have hlog : Int.log 2 (9007199254740993 : ℚ) = 53 := by
    have h := Int.log_natCast (R := ℚ) 2 9007199254740993
    have h2 : Nat.log 2 9007199254740993 = 53 := by
      rw [Nat.log_eq_iff (by norm_num)]
      norm_num
    rw [h2] at h
    exact_mod_cast h
  have hexp : f64Exp (9007199254740993 : ℚ) = 1 := by
    unfold f64Exp
    rw [abs_of_pos (by norm_num), hlog]
    norm_num
  have hfloor : ⌊(9007199254740993 : ℚ) / 2⌋ = 4503599627370496 := by
    rw [Int.floor_eq_iff]
    norm_num
  have hround : roundNE ((9007199254740993 : ℚ) / 2) = 4503599627370496 := by
    unfold roundNE
    simp only [hfloor]
    norm_num
  unfold f64OfInt f64Round
  rw [if_neg (by norm_num)]
  push_cast
  rw [hexp, zpow_one, hround]
  norm_num

/-- C1, the claim as stated fails: a total of `2 ^ 53 + 1` rows in pages of 1 row
is within the range of the claim, and `SetNCount` counts `2 ^ 53` pages, one
page too few to hold the rows. -/
theorem SetNCount_totalPages_inexact :
    (0 : Int) ≤ 9007199254740993 ∧ (9007199254740993 : Int) ≤ maxInt
      ∧ 1 ≤ ({ GPaginator.zero () with Limit := 1 } : GPaginator Unit).Limit
      ∧ (({ GPaginator.zero () with Limit := 1 } : GPaginator Unit).SetNCount
          9007199254740993).1.TotalPages = 9007199254740992
      ∧ ¬ ((9007199254740993 : Int) ≤
          (({ GPaginator.zero () with Limit := 1 } : GPaginator Unit).SetNCount
            9007199254740993).1.TotalPages
          * ({ GPaginator.zero () with Limit := 1 } : GPaginator Unit).Limit) := by
  have h1 : f64OfInt 1 = 1 := by
    have h := f64OfInt_exact (t := 1) (by norm_num) (by norm_num)
    simpa using h
  have hq : f64Div 9007199254740992 1 = 9007199254740992 := by
    have h := f64OfInt_exact (t := 9007199254740992) (by norm_num) (by norm_num)
    unfold f64OfInt at h
    unfold f64Div
    rw [div_one]
    exact_mod_cast h
  have hc : f64Ceil 9007199254740992 = ((9007199254740992 : ℤ) : ℚ) := by
    unfold f64Ceil
    have h : ⌈(9007199254740992 : ℚ)⌉ = 9007199254740992 := by
      have := Int.ceil_intCast (α := ℚ) 9007199254740992
      exact_mod_cast this
    rw [h]
  have hi : f64ToInt ((9007199254740992 : ℤ) : ℚ) = 9007199254740992 :=
    f64ToInt_intCast (by unfold minInt; norm_num) (by unfold maxInt; norm_num)
  have hTP : (({ GPaginator.zero () with Limit := 1 } : GPaginator Unit).SetNCount
      9007199254740993).1.TotalPages = 9007199254740992 := by
    rw [SetNCount_TotalPages_eq]
    show f64ToInt (f64Ceil (f64Div (f64OfInt 9007199254740993)
      (f64OfInt (if (1 : Int) ≤ 0 then 10 else 1)))) = 9007199254740992
    rw [if_neg (by norm_num), f64OfInt_two_pow_53_succ, h1, hq, hc, hi]
  refine ⟨by norm_num, by unfold maxInt; norm_num, ?_, hTP, ?_⟩
  · show (1 : Int) ≤ 1
    norm_num
  · rw [hTP]
    show ¬ ((9007199254740993 : Int) ≤ 9007199254740992 * 1)
    norm_num

/-- C1, amended: for `0 <= total <= 2 ^ 53` and a `Limit >= 1` (an `int`, so at
most `2 ^ 63 - 1`), after `SetNCount(total)` the field `TotalPages` is the exact
integer ceiling of `total / Limit`, the least integer `n` with
`n * Limit >= total`. -/
theorem SetNCount_totalPages {α : Type} (p : GPaginator α) (total : Int)
    (h0 : 0 ≤ total) (h53 : total ≤ 2 ^ 53) (hL1 : 1 ≤ p.Limit) (hL : p.Limit ≤ maxInt) :
    (p.SetNCount total).1.TotalPages = ⌈(total : ℚ) / (p.Limit : ℚ)⌉
      ∧ total ≤ (p.SetNCount total).1.TotalPages * p.Limit
      ∧ ∀ n : Int, total ≤ n * p.Limit → (p.SetNCount total).1.TotalPages ≤ n := by
  have hTP : (p.SetNCount total).1.TotalPages = ⌈(total : ℚ) / (p.Limit : ℚ)⌉ := by
    rw [SetNCount_TotalPages_eq, if_neg (by omega)]
    exact totalPages_exact h0 h53 hL1 hL
  rw [hTP]
  exact ⟨rfl, ceil_div_least total hL1⟩

/-- Two runs of `SetNCount_totalPages`: 25 rows in pages of 10 are 3 pages, and
0 rows in pages of 10 are 0 pages. -/
theorem SetNCount_totalPages_witness :
    (({ GPaginator.zero () with Limit := 10 } : GPaginator Unit).SetNCount 25).1.TotalPages = 3
      ∧ (({ GPaginator.zero () with Limit := 10 } : GPaginator Unit).SetNCount 0).1.TotalPages
        = 0 := by
  have hL1 : (1 : Int) ≤ ({ GPaginator.zero () with Limit := 10 } : GPaginator Unit).Limit := by
    show (1 : Int) ≤ 10
    norm_num
  have hL : ({ GPaginator.zero () with Limit := 10 } : GPaginator Unit).Limit ≤ maxInt := by
    show (10 : Int) ≤ maxInt
    unfold maxInt
    norm_num
  have h25 := SetNCount_totalPages ({ GPaginator.zero () with Limit := 10 } : GPaginator Unit)
    25 (by norm_num) (by norm_num) hL1 hL
  have h00 := SetNCount_totalPages ({ GPaginator.zero () with Limit := 10 } : GPaginator Unit)
    0 (by norm_num) (by norm_num) hL1 hL
  constructor
  · have ha := h25.2.1
    have hb := h25.2.2 3 (by show (25 : Int) ≤ 3 * 10; norm_num)
    have hc : (25 : Int) ≤ (({ GPaginator.zero () with Limit := 10 } :
        GPaginator Unit).SetNCount 25).1.TotalPages * 10 := ha
    omega
  · have ha := h00.2.1
    have hb := h00.2.2 0 (by show (0 : Int) ≤ 0 * 10; norm_num)
    have hc : (0 : Int) ≤ (({ GPaginator.zero () with Limit := 10 } :
        GPaginator Unit).SetNCount 0).1.TotalPages * 10 := ha
    omega

/-! ## SetNCount: offset, limit, page, sort and order -/

/-- C2: after `SetNCount` the field `Offset` is `(Page - 1) * Limit` of the
normalised `Page` and `Limit`, reduced to Go's 64-bit `int`; for `Page >= 1` and
`Limit >= 1` these are the values before the call; the offset is the exact
product whenever that fits in `int`; and `Page <= 0` gives the offset 0. -/
theorem SetNCount_offset {α : Type} (p : GPaginator α) (total : Int) :
    (p.SetNCount total).1.Offset
        = wrapInt (((p.SetNCount total).1.Page - 1) * (p.SetNCount total).1.Limit)
      ∧ (1 ≤ p.Page → 1 ≤ p.Limit →
          (p.SetNCount total).1.Offset = wrapInt ((p.Page - 1) * p.Limit))
      ∧ (minInt ≤ ((p.SetNCount total).1.Page - 1) * (p.SetNCount total).1.Limit →
          ((p.SetNCount total).1.Page - 1) * (p.SetNCount total).1.Limit ≤ maxInt →
          (p.SetNCount total).1.Offset
            = ((p.SetNCount total).1.Page - 1) * (p.SetNCount total).1.Limit)
      ∧ (p.Page ≤ 0 → (p.SetNCount total).1.Offset = 0) := by
  rw [SetNCount_Offset_eq, SetNCount_Page_eq, SetNCount_Limit_eq]
  refine ⟨rfl, ?_, ?_, ?_⟩
  · intro hP hL
    rw [if_neg (by omega), if_neg (by omega)]
  · intro h1 h2
    exact wrapInt_of_fits h1 h2
  · intro hP
    rw [if_pos hP]
    simp [wrapInt]

/-- Runs of `SetNCount_offset`: page 3 of pages of 10 rows starts at offset 20,
which is the exact product, and an unset page starts at offset 0. -/
theorem SetNCount_offset_witness :
    (({ GPaginator.zero () with Limit := 10, Page := 3 } : GPaginator Unit).SetNCount 25).1.Offset
        = wrapInt ((3 - 1) * 10)
      ∧ (({ GPaginator.zero () with Limit := 10, Page := 3 } :
          GPaginator Unit).SetNCount 25).1.Offset = (3 - 1) * 10
      ∧ ((GPaginator.zero () : GPaginator Unit).SetNCount 25).1.Offset = 0 := by
  have h := SetNCount_offset ({ GPaginator.zero () with Limit := 10, Page := 3 } :
    GPaginator Unit) 25
  have h0 := SetNCount_offset (GPaginator.zero () : GPaginator Unit) 25
  have hP : (({ GPaginator.zero () with Limit := 10, Page := 3 } :
      GPaginator Unit).SetNCount 25).1.Page = 3 := by
    rw [SetNCount_Page_eq]
    decide
  have hL : (({ GPaginator.zero () with Limit := 10, Page := 3 } :
      GPaginator Unit).SetNCount 25).1.Limit = 10 := by
    rw [SetNCount_Limit_eq]
    decide
  refine ⟨h.2.1 (by decide) (by decide), ?_, h0.2.2.2 (by decide)⟩
  have h3 := h.2.2.1
  rw [hP, hL] at h3
  exact h3 (by decide) (by decide)

/-- C3: after `SetNCount` the field `Limit` is 10 if it was `<= 0` before the
call and is unchanged otherwise; so it is at least 1. -/
theorem SetNCount_limit {α : Type} (p : GPaginator α) (total : Int) :
    (p.SetNCount total).1.Limit = (if p.Limit ≤ 0 then 10 else p.Limit)
      ∧ 1 ≤ (p.SetNCount total).1.Limit := by
  rw [SetNCount_Limit_eq]
  refine ⟨rfl, ?_⟩
  split_ifs <;> omega

/-- C4: after `SetNCount` the field `Page` is 1 if it was `<= 0` before the call
and is unchanged otherwise, whatever the total; so it is at least 1, and it is
not clamped to `TotalPages`: page 5 of an empty result stays page 5 of 0 pages. -/
theorem SetNCount_page {α : Type} (p : GPaginator α) (total : Int) :
    (p.SetNCount total).1.Page = (if p.Page ≤ 0 then 1 else p.Page)
      ∧ 1 ≤ (p.SetNCount total).1.Page
      ∧ (({ p with Page := 5 } : GPaginator α).SetNCount 0).1.Page = 5
      ∧ (({ p with Page := 5 } : GPaginator α).SetNCount 0).1.TotalPages = 0 := by
  rw [SetNCount_Page_eq, SetNCount_Page_eq, SetNCount_TotalPages_eq]
  refine ⟨rfl, ?_, ?_, ?_⟩
  · split_ifs <;> omega
  · exact if_neg (show ¬ (5 : Int) ≤ 0 by decide)
  · simp [f64OfInt, f64Div, f64Round, f64Ceil, f64ToInt, minInt, maxInt]

/-- C5: after `SetNCount` the field `Sort` is "asc" if it was empty and is
unchanged otherwise, the field `Order` is "id" if it was empty and is unchanged
otherwise; so neither is empty. -/
theorem SetNCount_sort_order {α : Type} (p : GPaginator α) (total : Int) :
    (p.SetNCount total).1.«Sort» = (if p.«Sort» = "" then "asc" else p.«Sort»)
      ∧ (p.SetNCount total).1.Order = (if p.Order = "" then "id" else p.Order)
      ∧ (p.SetNCount total).1.«Sort» ≠ ""
      ∧ (p.SetNCount total).1.Order ≠ "" := by
  rw [SetNCount_Sort_eq, SetNCount_Order_eq]
  refine ⟨rfl, rfl, ?_, ?_⟩
  · split_ifs with h
    · decide
    · exact h
  · split_ifs with h
    · decide
    · exact h

/-! ## SetCount -/

/-- C6: when the count query fails with the error `e`, `SetCount` returns `e`
and leaves the paginator as it was, field by field. -/
theorem SetCount_error {α : Type} (p : GPaginator α) (e : GoError) :
    (p.SetCount (.error e)).2 = some e
      ∧ (p.SetCount (.error e)).1 = p
      ∧ (p.SetCount (.error e)).1.Limit = p.Limit
      ∧ (p.SetCount (.error e)).1.Page = p.Page
      ∧ (p.SetCount (.error e)).1.«Sort» = p.«Sort»
      ∧ (p.SetCount (.error e)).1.Order = p.Order
      ∧ (p.SetCount (.error e)).1.Offset = p.Offset
      ∧ (p.SetCount (.error e)).1.TotalRows = p.TotalRows
      ∧ (p.SetCount (.error e)).1.TotalPages = p.TotalPages
      ∧ (p.SetCount (.error e)).1.Rows = p.Rows :=
  ⟨rfl, rfl, rfl, rfl, rfl, rfl, rfl, rfl, rfl, rfl⟩

/-! ## Scopes -/

/-- The receiver after `Scopes`. -/
theorem Scopes_fst {α : Type} (p : GPaginator α) :
    p.Scopes.1 = { p with Limit := if p.Limit ≤ 0 then 10 else p.Limit } := by
  unfold GPaginator.Scopes
  split_ifs <;> rfl

/-- The closure returned by `Scopes`, applied while the paginator is in state `s`. -/
theorem Scopes_snd {α : Type} (p s : GPaginator α) (db : DB) :
    p.Scopes.2 s db
      = { offset := s.Offset, limit := s.Limit, order := s.Order ++ " " ++ s.«Sort» } := rfl

/-- C7: the modifier returned by `Scopes` sets the offset of the query to the
paginator's `Offset`, its limit to the paginator's `Limit`, which is at least 1
after `Scopes`, and its order expression to `Order`, a space, `Sort`; after
`SetNCount` on a paginator with `Sort` and `Order` unset the expression is "id asc". -/
theorem Scopes_modifier {α : Type} (p : GPaginator α) (db : DB) (total : Int) :
    (p.Scopes.2 p.Scopes.1 db).offset = p.Scopes.1.Offset
      ∧ (p.Scopes.2 p.Scopes.1 db).limit = p.Scopes.1.Limit
      ∧ 1 ≤ (p.Scopes.2 p.Scopes.1 db).limit
      ∧ (p.Scopes.2 p.Scopes.1 db).order = p.Scopes.1.Order ++ " " ++ p.Scopes.1.«Sort»
      ∧ (p.Scopes.2 p.Scopes.1 db).order = p.Order ++ " " ++ p.«Sort»
      ∧ (p.Scopes.2 (({ p with «Sort» := "", Order := "" } : GPaginator α).SetNCount total).1
          db).order = "id asc" := by
  refine ⟨rfl, rfl, ?_, rfl, ?_, ?_⟩
  · show 1 ≤ p.Scopes.1.Limit
    rw [Scopes_fst]
    show 1 ≤ (if p.Limit ≤ 0 then 10 else p.Limit)
    split_ifs <;> omega
  · rw [Scopes_snd, Scopes_fst]
  · rw [Scopes_snd, SetNCount_Sort_eq, SetNCount_Order_eq]
    show (if "" = "" then "id" else "") ++ " " ++ (if "" = "" then "asc" else "") = "id asc"
    decide

/-- C8: on a paginator whose `Sort` is the column "name" and whose `Order` is
the direction "desc", as the field comments have it, the modifier returned by
`Scopes` orders by "desc name", the direction first, not by "name desc"; and
the defaults of `SetNCount` put the direction "asc" in `Sort` and the column
"id" in `Order`. -/
theorem Scopes_order_direction_first (db : DB) (total : Int) :
    (({ GPaginator.zero () with «Sort» := "name", Order := "desc" } : GPaginator Unit).Scopes.2
        ({ GPaginator.zero () with «Sort» := "name", Order := "desc" } :
          GPaginator Unit).Scopes.1 db).order = "desc name"
      ∧ (({ GPaginator.zero () with «Sort» := "name", Order := "desc" } : GPaginator Unit).Scopes.2
        ({ GPaginator.zero () with «Sort» := "name", Order := "desc" } :
          GPaginator Unit).Scopes.1 db).order ≠ "name" ++ " " ++ "desc"
      ∧ ((GPaginator.zero () : GPaginator Unit).SetNCount total).1.«Sort» = "asc"
      ∧ ((GPaginator.zero () : GPaginator Unit).SetNCount total).1.Order = "id" := by
  refine ⟨?_, ?_, ?_, ?_⟩
  · rw [Scopes_snd, Scopes_fst]
    decide
  · rw [Scopes_snd, Scopes_fst]
    decide
  · rw [SetNCount_Sort_eq]
    decide
  · rw [SetNCount_Order_eq]
    decide

/-- C9: `Scopes` sets `Limit` to 10 when it is `<= 0`, keeps a `Limit >= 1`, and
changes no other field of the paginator. -/
theorem Scopes_frame {α : Type} (p : GPaginator α) :
    p.Scopes.1.Limit = (if p.Limit ≤ 0 then 10 else p.Limit)
      ∧ p.Scopes.1.Page = p.Page
      ∧ p.Scopes.1.«Sort» = p.«Sort»
      ∧ p.Scopes.1.Order = p.Order
      ∧ p.Scopes.1.Offset = p.Offset
      ∧ p.Scopes.1.TotalRows = p.TotalRows
      ∧ p.Scopes.1.TotalPages = p.TotalPages
      ∧ p.Scopes.1.Rows = p.Rows := by
  rw [Scopes_fst]
  exact ⟨rfl, rfl, rfl, rfl, rfl, rfl, rfl, rfl⟩

/-- C10: `Scopes` twice leaves the state `Scopes` once leaves, and `Scopes` then
`SetNCount`, `SetNCount` then `Scopes`, and `SetNCount` alone all leave the same
state, whose `Limit` is the one normalised with the default 10. -/
theorem Scopes_SetNCount_consistent {α : Type} (p : GPaginator α) (total : Int) :
    p.Scopes.1.Scopes.1 = p.Scopes.1
      ∧ (p.Scopes.1.SetNCount total).1 = (p.SetNCount total).1
      ∧ (p.SetNCount total).1.Scopes.1 = (p.SetNCount total).1
      ∧ (p.SetNCount total).1.Limit = (if p.Limit ≤ 0 then 10 else p.Limit) := by
  refine ⟨?_, ?_, ?_, ?_⟩
  · rw [Scopes_fst, Scopes_fst]
    by_cases h : p.Limit ≤ 0
    · simp [h]
    · simp [h]
  · rw [SetNCount_fields, SetNCount_fields, Scopes_fst]
    by_cases h : p.Limit ≤ 0
    · simp [h]
    · simp [h]
  · rw [Scopes_fst, SetNCount_fields]
    by_cases h : p.Limit ≤ 0
    · simp [h]
    · simp [h]
  · rw [SetNCount_Limit_eq]

/-! ## Matching: the texts a regular expression matches -/

/-- The cuts of `w` are the pairs that concatenate to `w`. -/
theorem mem_splits {w u v : List Char} : (u, v) ∈ splits w ↔ u ++ v = w := by
  unfold splits
  simp only [List.mem_map, List.mem_range, Prod.mk.injEq]
  constructor
  · rintro ⟨n, _, rfl, rfl⟩
    exact List.take_append_drop n w
  · rintro rfl
    refine ⟨u.length, ?_, ?_, ?_⟩
    · simp
      omega
    · simp
    · simp

/-- Some cut of `w` satisfies `f`. -/
theorem any_splits {w : List Char} {f : List Char × List Char → Bool} :
    (splits w).any f = true ↔ ∃ u v, u ++ v = w ∧ f (u, v) = true := by
  rw [List.any_eq_true]
  constructor
  · rintro ⟨⟨u, v⟩, hmem, hf⟩
    exact ⟨u, v, mem_splits.mp hmem, hf⟩
  · rintro ⟨u, v, huv, hf⟩
    exact ⟨(u, v), mem_splits.mpr huv, hf⟩

/-- A class matches the texts of one character of the class. -/
theorem matches_cls {p : Char → Bool} {s e : Bool} {w : List Char} :
    (Regex.cls p).matches s w e = true ↔ ∃ c, w = [c] ∧ p c = true := by
  unfold Regex.matches
  split
  · rename_i c
    simp
  · rename_i h
    constructor
    · intro hf
      exact absurd hf (by simp)
    · rintro ⟨c, rfl, _⟩
      exact absurd rfl (h c)

/-- A concatenation matches the texts cut in two matched pieces. -/
theorem matches_cat {a b : Regex} {s e : Bool} {w : List Char} :
    (Regex.cat a b).matches s w e = true ↔
      ∃ u v, u ++ v = w ∧ a.matches s u (e && v.isEmpty) = true
        ∧ b.matches (s && u.isEmpty) v e = true := by
  rw [Regex.matches, any_splits]
  simp only [Bool.and_eq_true]

/-- The text of `^`: empty, at the beginning. -/
theorem matches_beginText {s e : Bool} {w : List Char} :
    Regex.beginText.matches s w e = true ↔ s = true ∧ w = [] := by
  simp [Regex.matches]

/-- The text of `$`: empty, at the end. -/
theorem matches_endText {s e : Bool} {w : List Char} :
    Regex.endText.matches s w e = true ↔ e = true ∧ w = [] := by
  simp [Regex.matches]

/-- One or more characters of a class: the pieces of `plusMatches` are single
characters. -/
theorem plusMatches_cls {p : Char → Bool} (n : Nat) :
    ∀ (s e : Bool) (w : List Char), w.length ≤ n + 1 →
      (plusMatches (Regex.cls p).matches n s w e = true ↔ w ≠ [] ∧ ∀ c ∈ w, p c = true) := by
  induction n with
  | zero =>
    intro s e w hlen
    rw [plusMatches, matches_cls]
    constructor
    · rintro ⟨c, rfl, hc⟩
      exact ⟨by simp, by simpa using hc⟩
    · rintro ⟨hne, hall⟩
      match w, hne, hlen, hall with
      | [c], _, _, hall => exact ⟨c, rfl, hall c (by simp)⟩
      | _ :: _ :: _, _, hlen, _ => simp at hlen
  | succ n ih =>
    intro s e w hlen
    rw [plusMatches, Bool.or_eq_true, any_splits, matches_cls]
    constructor
    · rintro (⟨c, rfl, hc⟩ | ⟨u, v, rfl, huv⟩)
      · exact ⟨by simp, by simpa using hc⟩
      · simp only [Bool.and_eq_true, matches_cls] at huv
        obtain ⟨⟨_, c, rfl, hc⟩, hv⟩ := huv
        have hv2 := (ih false e v (by simp at hlen; omega)).mp hv
        refine ⟨by simp, ?_⟩
        intro x hx
        simp only [List.singleton_append, List.mem_cons] at hx
        rcases hx with rfl | hx
        · exact hc
        · exact hv2.2 x hx
    · rintro ⟨hne, hall⟩
      match w, hne, hlen, hall with
      | [c], _, _, hall => exact Or.inl ⟨c, rfl, hall c (by simp)⟩
      | c :: d :: v, _, hlen, hall =>
        right
        refine ⟨[c], d :: v, rfl, ?_⟩
        simp only [Bool.and_eq_true, matches_cls]
        refine ⟨⟨by simp, c, rfl, hall c (by simp)⟩, ?_⟩
        refine (ih false e (d :: v) (by simp at hlen ⊢; omega)).mpr ⟨by simp, ?_⟩
        intro x hx
        exact hall x (List.mem_cons_of_mem c hx)

/-- The expression `[p]+` matches the non-empty texts of characters of the class. -/
theorem matches_plus_cls {p : Char → Bool} {s e : Bool} {w : List Char} :
    (Regex.plus (Regex.cls p)).matches s w e = true ↔ w ≠ [] ∧ ∀ c ∈ w, p c = true := by
  rw [Regex.matches]
  exact plusMatches_cls w.length s e w (by omega)

/-- The expression `[p]{lo,hi}` matches the texts of `lo` to `hi` characters of
the class. -/
theorem repMatches_cls {p : Char → Bool} (hi : Nat) :
    ∀ (lo : Nat) (s e : Bool) (w : List Char),
      (repMatches (Regex.cls p).matches lo hi s w e = true ↔
        lo ≤ w.length ∧ w.length ≤ hi ∧ ∀ c ∈ w, p c = true) := by
  induction hi with
  | zero =>
    intro lo s e w
    rw [repMatches]
    cases w with
    | nil => simp
    | cons c v => simp
  | succ hi ih =>
    intro lo s e w
    rw [repMatches, Bool.or_eq_true, any_splits]
    constructor
    · rintro (h0 | ⟨u, v, rfl, huv⟩)
      · simp only [Bool.and_eq_true, decide_eq_true_eq, List.isEmpty_iff] at h0
        obtain ⟨rfl, rfl⟩ := h0
        simp
      · simp only [Bool.and_eq_true, matches_cls] at huv
        obtain ⟨⟨c, rfl, hc⟩, hv⟩ := huv
        obtain ⟨h1, h2, h3⟩ := (ih _ _ _ _).mp hv
        refine ⟨by simp; omega, by simp; omega, ?_⟩
        intro x hx
        simp only [List.singleton_append, List.mem_cons] at hx
        rcases hx with rfl | hx
        · exact hc
        · exact h3 x hx
    · rintro ⟨h1, h2, h3⟩
      cases w with
      | nil =>
        left
        simp at h1
        simp [h1]
      | cons c v =>
        right
        refine ⟨[c], v, rfl, ?_⟩
        simp only [Bool.and_eq_true, matches_cls]
        refine ⟨⟨c, rfl, h3 c (by simp)⟩, ?_⟩
        refine (ih _ _ _ _).mpr ⟨by simp at h1; omega, by simp at h2; omega, ?_⟩
        intro x hx
        exact h3 x (List.mem_cons_of_mem c hx)

/-- The expression `[p]{lo,hi}` as a regular expression. -/
theorem matches_rep_cls {p : Char → Bool} {lo hi : Nat} {s e : Bool} {w : List Char} :
    (Regex.rep (Regex.cls p) lo hi).matches s w e = true ↔
      lo ≤ w.length ∧ w.length ≤ hi ∧ ∀ c ∈ w, p c = true := by
  rw [Regex.matches]
  exact repMatches_cls hi lo s e w

/-- A text contains a match of `r` when one of its pieces, in its place, is matched. -/
theorem MatchString_iff {r : Regex} {t : String} :
    r.MatchString t = true ↔
      ∃ pre w post, pre ++ (w ++ post) = t.data
        ∧ r.matches pre.isEmpty w post.isEmpty = true := by
  unfold Regex.MatchString
  rw [any_splits]
  constructor
  · rintro ⟨pre, rest, h1, h2⟩
    rw [any_splits] at h2
    obtain ⟨w, post, h3, h4⟩ := h2
    exact ⟨pre, w, post, by rw [h3, h1], h4⟩
  · rintro ⟨pre, w, post, h1, h2⟩
    exact ⟨pre, w ++ post, h1, any_splits.mpr ⟨w, post, rfl, h2⟩⟩

/-- A text contains a match of `[p]+` when it has a character of the class. -/
theorem MatchString_plus_cls {p : Char → Bool} {t : String} :
    (Regex.plus (Regex.cls p)).MatchString t = true ↔ ∃ c ∈ t.data, p c = true := by
  rw [MatchString_iff]
  constructor
  · rintro ⟨pre, w, post, h1, h2⟩
    obtain ⟨hne, hall⟩ := matches_plus_cls.mp h2
    obtain ⟨c, hc⟩ := List.exists_mem_of_ne_nil w hne
    exact ⟨c, by rw [← h1]; simp [hc], hall c hc⟩
  · rintro ⟨c, hmem, hc⟩
    obtain ⟨pre, post, hsplit⟩ := List.append_of_mem hmem
    refine ⟨pre, [c], post, by simpa using hsplit.symm, ?_⟩
    exact matches_plus_cls.mpr ⟨by simp, by simpa using hc⟩

/-- Searching a text for `[p]+` is testing it for a character of the class. -/
theorem MatchString_plus_cls_eq_any (p : Char → Bool) (t : String) :
    (Regex.plus (Regex.cls p)).MatchString t = t.data.any p := by
  rw [Bool.eq_iff_iff, MatchString_plus_cls, List.any_eq_true]

/-- The texts `rxPhone` accepts: the non-empty texts of digits. -/
theorem rxPhone_MatchString (t : String) :
    rxPhone.MatchString t = true ↔ t.data ≠ [] ∧ ∀ c ∈ t.data, isDigit c = true := by
  rw [MatchString_iff]
  unfold rxPhone
  constructor
  · rintro ⟨pre, w, post, h1, h2⟩
    rw [matches_cat] at h2
    obtain ⟨u, v, huv, hb, hrest⟩ := h2
    rw [matches_beginText] at hb
    rw [matches_cat] at hrest
    obtain ⟨u2, v2, huv2, hplus, hend⟩ := hrest
    rw [matches_endText] at hend
    rw [matches_plus_cls] at hplus
    obtain ⟨hpre, rfl⟩ := hb
    obtain ⟨hpost, rfl⟩ := hend
    have hpre2 : pre = [] := List.isEmpty_iff.mp hpre
    have hpost2 : post = [] := List.isEmpty_iff.mp hpost
    subst hpre2 hpost2
    have hw : u2 = t.data := by
      rw [← h1, ← huv, ← huv2]
      simp
    rw [← hw]
    exact hplus
  · rintro ⟨hne, hall⟩
    refine ⟨[], t.data, [], by simp, ?_⟩
    rw [matches_cat]
    refine ⟨[], t.data, rfl, matches_beginText.mpr ⟨rfl, rfl⟩, ?_⟩
    rw [matches_cat]
    exact ⟨t.data, [], by simp, matches_plus_cls.mpr ⟨hne, hall⟩,
      matches_endText.mpr ⟨rfl, rfl⟩⟩

/-- A string is empty when it has no character. -/
theorem data_eq_nil_iff (s : String) : s.data = [] ↔ s = "" := by
  constructor
  · intro h
    exact String.ext h
  · rintro rfl
    rfl

/-- The method `Password.Ok` is the conjunction of the four searches. -/
theorem Password_Ok_eq (s : String) :
    Password.Ok s = (s.data.any isUpper && s.data.any isLower && s.data.any isPunct
      && s.data.any isDigit) := by
  unfold Password.Ok upper lower punct digit
  simp only [MatchString_plus_cls_eq_any]
  cases s.data.any isUpper <;> cases s.data.any isLower <;> cases s.data.any isPunct <;>
    cases s.data.any isDigit <;> rfl

/-- The method `Password.Validate` returns the error of the last rule that fails. -/
theorem Password_Validate_eq (s : String) :
    Password.Validate s =
      (if !s.data.any isDigit then some "password should contain one or more digit character"
       else if !s.data.any isPunct then
         some "password should contain one or more special character"
       else if !s.data.any isLower then
         some "password should contain one or more lowercase character"
       else if !s.data.any isUpper then
         some "password should contain one or more uppercase character"
       else none) := by
  unfold Password.Validate upper lower punct digit errorsNew
  rw [MatchString_plus_cls_eq_any, MatchString_plus_cls_eq_any, MatchString_plus_cls_eq_any,
    MatchString_plus_cls_eq_any]

/-! ## The validators -/

/-- C13: for each of `Email`, `Phone` and `Password` and every string, `Ok`
returns true if and only if `Validate` returns no error. -/
theorem Ok_iff_Validate_nil (s : String) :
    (Email.Ok s = true ↔ Email.Validate s = none)
      ∧ (Phone.Ok s = true ↔ Phone.Validate s = none)
      ∧ (Password.Ok s = true ↔ Password.Validate s = none) := by
  refine ⟨?_, ?_, ?_⟩
  · unfold Email.Ok Email.Validate errorsNew
    cases rxMail.MatchString s <;> simp
  · unfold Phone.Ok Phone.Validate errorsNew
    cases rxPhone.MatchString s <;> simp
  · rw [Password_Ok_eq, Password_Validate_eq]
    cases s.data.any isUpper <;> cases s.data.any isLower <;> cases s.data.any isPunct <;>
      cases s.data.any isDigit <;> simp

/-- C14: `Password.Ok` is true if and only if the string has an uppercase
letter, a lowercase letter, an ASCII punctuation character and a digit;
"5uperP@ssw0rd" is accepted and "password" is rejected. -/
theorem Password_Ok_iff (s : String) :
    (Password.Ok s = true ↔
        (∃ c ∈ s.data, isUpper c = true) ∧ (∃ c ∈ s.data, isLower c = true)
          ∧ (∃ c ∈ s.data, isPunct c = true) ∧ (∃ c ∈ s.data, isDigit c = true))
      ∧ Password.Ok "5uperP@ssw0rd" = true
      ∧ Password.Ok "password" = false := by
  refine ⟨?_, ?_, ?_⟩
  · rw [Password_Ok_eq]
    simp only [Bool.and_eq_true, List.any_eq_true]
    tauto
  · rw [Password_Ok_eq]
    decide
  · rw [Password_Ok_eq]
    decide

/-- C15: `Phone.Ok` is true if and only if the string is non-empty and all its
characters are digits; when it is false `Validate` returns the error
"not valid phone number"; "0123456789" is valid, "abc123" and "example.com" are
not, nor are the empty string and strings with a sign, a space, a letter or a
newline at the end. -/
theorem Phone_Ok_iff (s : String) :
    (Phone.Ok s = true ↔ s ≠ "" ∧ ∀ c ∈ s.data, isDigit c = true)
      ∧ Phone.Validate s = (if Phone.Ok s then none else some "not valid phone number")
      ∧ Phone.Ok "0123456789" = true
      ∧ Phone.Ok "abc123" = false
      ∧ Phone.Ok "example.com" = false
      ∧ Phone.Ok "" = false
      ∧ Phone.Ok "+123" = false
      ∧ Phone.Ok "12 3" = false
      ∧ Phone.Ok "123a" = false
      ∧ Phone.Ok "123\n" = false := by
  have key : ∀ t : String, Phone.Ok t = (!t.data.isEmpty && t.data.all isDigit) := by
    intro t
    rw [Bool.eq_iff_iff]
    unfold Phone.Ok
    rw [rxPhone_MatchString]
    simp [List.isEmpty_iff]
  refine ⟨?_, ?_, ?_, ?_, ?_, ?_, ?_, ?_, ?_, ?_⟩
  · unfold Phone.Ok
    rw [rxPhone_MatchString, Ne, Ne, data_eq_nil_iff]
  · unfold Phone.Validate Phone.Ok errorsNew
    cases rxPhone.MatchString s <;> rfl
  all_goals
    rw [key]
    decide

/-- C17: `Password.Validate` returns the error of the last failed rule in the
order uppercase, lowercase, special character, digit: the digit message when
there is no digit, whatever the other rules, and the uppercase message only
when the uppercase rule alone fails; for "password" it is the digit message. -/
theorem Password_Validate_last_failed (s : String) :
    Password.Validate s =
        (if !s.data.any isDigit then some "password should contain one or more digit character"
         else if !s.data.any isPunct then
           some "password should contain one or more special character"
         else if !s.data.any isLower then
           some "password should contain one or more lowercase character"
         else if !s.data.any isUpper then
           some "password should contain one or more uppercase character"
         else none)
      ∧ (Password.Validate s = some "password should contain one or more uppercase character"
          ↔ (s.data.any isUpper = false ∧ s.data.any isLower = true
              ∧ s.data.any isPunct = true ∧ s.data.any isDigit = true))
      ∧ (Password.Validate s = none ↔ Password.Ok s = true)
      ∧ Password.Validate "password"
          = some "password should contain one or more digit character" := by
  refine ⟨Password_Validate_eq s, ?_, ?_, ?_⟩
  · rw [Password_Validate_eq]
    cases s.data.any isUpper <;> cases s.data.any isLower <;> cases s.data.any isPunct <;>
      cases s.data.any isDigit <;> decide
  · rw [Password_Validate_eq, Password_Ok_eq]
    cases s.data.any isUpper <;> cases s.data.any isLower <;> cases s.data.any isPunct <;>
      cases s.data.any isDigit <;> decide
  · rw [Password_Validate_eq]
    decide

/-! ## The texts `rxMail` accepts -/

/-- A letter or a digit is a character of the class `[[:alnum:]\-\.]`. -/
theorem isMailChar_of_isAlnum {c : Char} (h : isAlnum c = true) : isMailChar c = true := by
  unfold isMailChar
  simp [h]

/-- The shape of the texts of `mailLabel`: a letter or digit, a non-empty middle
of characters of the class, a letter or digit. -/
theorem mailLabel_iff {w : List Char} :
    mailLabel w = true ↔
      ∃ a mid z, w = a :: (mid ++ [z]) ∧ mid ≠ [] ∧ isAlnum a = true ∧ isAlnum z = true
        ∧ ∀ c ∈ mid, isMailChar c = true := by
  constructor
  · intro h
    unfold mailLabel at h
    simp only [Bool.and_eq_true, decide_eq_true_eq, List.all_eq_true] at h
    obtain ⟨⟨⟨hlen, hall⟩, hhead⟩, hlast⟩ := h
    match w, hlen, hall, hhead, hlast with
    | a :: rest, hlen, hall, hhead, hlast =>
      rcases List.eq_nil_or_concat rest with hnil | ⟨mid, z, hrest⟩
      · subst hnil
        simp at hlen
      · rw [List.concat_eq_append] at hrest
        subst hrest
        refine ⟨a, mid, z, rfl, ?_, ?_, ?_, ?_⟩
        · rintro rfl
          simp at hlen
        · simpa using hhead
        · rw [← List.cons_append, List.getLast?_concat] at hlast
          simpa using hlast
        · intro c hc
          exact hall c (by simp [hc])
  · rintro ⟨a, mid, z, rfl, hmid, ha, hz, hall⟩
    unfold mailLabel
    simp only [Bool.and_eq_true, decide_eq_true_eq, List.all_eq_true]
    refine ⟨⟨⟨?_, ?_⟩, ?_⟩, ?_⟩
    · have : 0 < mid.length := List.length_pos.mpr hmid
      simp
      omega
    · intro c hc
      simp only [List.mem_cons, List.mem_append, List.not_mem_nil, or_false] at hc
      rcases hc with rfl | hc | rfl
      · exact isMailChar_of_isAlnum ha
      · exact hall c hc
      · exact isMailChar_of_isAlnum hz
    · simpa using ha
    · rw [← List.cons_append, List.getLast?_concat]
      simpa using hz

/-- The texts of `mailLabel` are closed under concatenation. -/
theorem mailLabel_append {u v : List Char} (hu : mailLabel u = true) (hv : mailLabel v = true) :
    mailLabel (u ++ v) = true := by
  obtain ⟨a, m1, z1, rfl, -, ha, hz1, h1⟩ := mailLabel_iff.mp hu
  obtain ⟨b, m2, z2, rfl, -, hb, hz2, h2⟩ := mailLabel_iff.mp hv
  refine mailLabel_iff.mpr ⟨a, m1 ++ [z1] ++ b :: m2, z2, by simp, by simp, ha, hz2, ?_⟩
  intro c hc
  simp only [List.mem_cons, List.mem_append, List.not_mem_nil, or_false] at hc
  rcases hc with (hc | rfl) | rfl | hc
  · exact h1 c hc
  · exact isMailChar_of_isAlnum hz1
  · exact isMailChar_of_isAlnum hb
  · exact h2 c hc

/-- The group of `rxMail` matches the texts of `mailLabel`. -/
theorem mailPart_matches {s e : Bool} {w : List Char} :
    mailPart.matches s w e = true ↔ mailLabel w = true := by
  unfold mailPart
  rw [matches_cat, mailLabel_iff]
  constructor
  · rintro ⟨u, v, rfl, hu, hv⟩
    rw [matches_plus_cls] at hu
    rw [matches_cat] at hv
    obtain ⟨u2, v2, rfl, hu2, hv2⟩ := hv
    rw [matches_plus_cls] at hu2
    rw [matches_cls] at hv2
    obtain ⟨z, rfl, hz⟩ := hv2
    obtain ⟨hune, huall⟩ := hu
    obtain ⟨hu2ne, hu2all⟩ := hu2
    match u, hune, huall with
    | a :: u1, _, huall =>
      refine ⟨a, u1 ++ u2, z, by simp, by simp [hu2ne], huall a (by simp), hz, ?_⟩
      intro c hc
      rcases List.mem_append.mp hc with hc | hc
      · exact isMailChar_of_isAlnum (huall c (List.mem_cons_of_mem a hc))
      · exact hu2all c hc
  · rintro ⟨a, mid, z, rfl, hmid, ha, hz, hall⟩
    refine ⟨[a], mid ++ [z], rfl, ?_, ?_⟩
    · exact matches_plus_cls.mpr ⟨by simp, by simpa using ha⟩
    · rw [matches_cat]
      exact ⟨mid, [z], rfl, matches_plus_cls.mpr ⟨hmid, hall⟩, matches_cls.mpr ⟨z, rfl, hz⟩⟩

/-- One or more pieces of a set of texts closed under concatenation make up a
text of the set. -/
theorem plusMatches_closed {m : Bool → List Char → Bool → Bool} {P : List Char → Prop}
    (hm : ∀ s w e, m s w e = true ↔ P w) (hP : ∀ u v, P u → P v → P (u ++ v)) (n : Nat) :
    ∀ (s e : Bool) (w : List Char), plusMatches m n s w e = true ↔ P w := by
  induction n with
  | zero =>
    intro s e w
    rw [plusMatches]
    exact hm s w e
  | succ n ih =>
    intro s e w
    rw [plusMatches, Bool.or_eq_true, any_splits]
    constructor
    · rintro (h | ⟨u, v, rfl, huv⟩)
      · exact (hm s w e).mp h
      · simp only [Bool.and_eq_true] at huv
        exact hP u v ((hm _ _ _).mp huv.1.2) ((ih _ _ _).mp huv.2)
    · intro h
      exact Or.inl ((hm s w e).mpr h)

/-- The expression `(?:...)+` of `rxMail` matches the texts of `mailLabel`. -/
theorem plus_mailPart_matches {s e : Bool} {w : List Char} :
    (Regex.plus mailPart).matches s w e = true ↔ mailLabel w = true := by
  rw [Regex.matches]
  exact plusMatches_closed (P := fun w => mailLabel w = true)
    (fun _ _ _ => mailPart_matches) (fun _ _ => mailLabel_append) w.length s e w

/-- The texts of `mailTld` are those `[[:alpha:]]{2,6}` matches. -/
theorem mailTld_iff {w : List Char} :
    mailTld w = true ↔ 2 ≤ w.length ∧ w.length ≤ 6 ∧ ∀ c ∈ w, isAlpha c = true := by
  unfold mailTld
  simp only [Bool.and_eq_true, decide_eq_true_eq, List.all_eq_true, and_assoc]

/-- The texts `rxMail` accepts: a label, `@`, a label, `.`, two to six letters. -/
theorem rxMail_MatchString (t : String) :
    rxMail.MatchString t = true ↔
      ∃ l d tl, t.data = l ++ '@' :: (d ++ '.' :: tl)
        ∧ mailLabel l = true ∧ mailLabel d = true ∧ mailTld tl = true := by
  rw [MatchString_iff]
  unfold rxMail
  constructor
  · rintro ⟨pre, w, post, h1, h2⟩
    rw [matches_cat] at h2
    obtain ⟨u0, v0, rfl, hb, h3⟩ := h2
    rw [matches_beginText] at hb
    obtain ⟨hpre, rfl⟩ := hb
    rw [matches_cat] at h3
    obtain ⟨l, v1, rfl, hl, h4⟩ := h3
    rw [plus_mailPart_matches] at hl
    rw [matches_cat] at h4
    obtain ⟨a, v2, rfl, ha, h5⟩ := h4
    rw [matches_cls] at ha
    obtain ⟨ca, rfl, hca⟩ := ha
    rw [matches_cat] at h5
    obtain ⟨d, v3, rfl, hd, h6⟩ := h5
    rw [plus_mailPart_matches] at hd
    rw [matches_cat] at h6
    obtain ⟨b, v4, rfl, hb, h7⟩ := h6
    rw [matches_cls] at hb
    obtain ⟨cb, rfl, hcb⟩ := hb
    rw [matches_cat] at h7
    obtain ⟨tl, v5, rfl, htl, h8⟩ := h7
    rw [matches_rep_cls] at htl
    rw [matches_endText] at h8
    obtain ⟨hpost, rfl⟩ := h8
    have hpre2 : pre = [] := List.isEmpty_iff.mp hpre
    have hpost2 : post = [] := List.isEmpty_iff.mp hpost
    subst hpre2 hpost2
    have hca2 : ca = '@' := by simpa using hca
    have hcb2 : cb = '.' := by simpa using hcb
    subst hca2 hcb2
    refine ⟨l, d, tl, ?_, hl, hd, mailTld_iff.mpr htl⟩
    rw [← h1]
    simp
  · rintro ⟨l, d, tl, hdata, hl, hd, htl⟩
    refine ⟨[], t.data, [], by simp, ?_⟩
    rw [matches_cat]
    refine ⟨[], t.data, rfl, matches_beginText.mpr ⟨rfl, rfl⟩, ?_⟩
    rw [hdata, matches_cat]
    refine ⟨l, '@' :: (d ++ '.' :: tl), rfl, plus_mailPart_matches.mpr hl, ?_⟩
    rw [matches_cat]
    refine ⟨['@'], d ++ '.' :: tl, rfl, matches_cls.mpr ⟨'@', rfl, by simp⟩, ?_⟩
    rw [matches_cat]
    refine ⟨d, '.' :: tl, rfl, plus_mailPart_matches.mpr hd, ?_⟩
    rw [matches_cat]
    refine ⟨['.'], tl, rfl, matches_cls.mpr ⟨'.', rfl, by simp⟩, ?_⟩
    rw [matches_cat]
    exact ⟨tl, [], by simp, matches_rep_cls.mpr (mailTld_iff.mp htl),
      matches_endText.mpr ⟨rfl, rfl⟩⟩

/-- A text of `mailLabel` has no `@`. -/
theorem ne_at_of_mailLabel {l : List Char} (hl : mailLabel l = true) :
    ∀ c ∈ l, (c != '@') = true := by
  intro c hc
  unfold mailLabel at hl
  simp only [Bool.and_eq_true, List.all_eq_true] at hl
  have h := hl.1.1.2 c hc
  rw [bne_iff_ne]
  rintro rfl
  exact absurd h (by decide)

/-- A text of `mailTld` has no `.`. -/
theorem ne_dot_of_mailTld {tl : List Char} (htl : mailTld tl = true) :
    ∀ c ∈ tl, (c != '.') = true := by
  intro c hc
  have h := (mailTld_iff.mp htl).2.2 c hc
  rw [bne_iff_ne]
  rintro rfl
  exact absurd h (by decide)

/-- In an accepted text the label before `@` is the part before the first `@`. -/
theorem mailLocal_eq {l d tl : List Char} (hl : mailLabel l = true) :
    mailLocal (l ++ '@' :: (d ++ '.' :: tl)) = l := by
  unfold mailLocal
  rw [List.takeWhile_append_of_pos (ne_at_of_mailLabel hl)]
  simp

/-- In an accepted text the label after `@` is the part between the first `@`
and the last `.`. -/
theorem mailDomain_eq {l d tl : List Char} (hl : mailLabel l = true)
    (htl : mailTld tl = true) : mailDomain (l ++ '@' :: (d ++ '.' :: tl)) = d := by
  unfold mailDomain
  rw [List.dropWhile_append_of_pos (ne_at_of_mailLabel hl)]
  have h1 : (List.dropWhile (fun c => c != '@') ('@' :: (d ++ '.' :: tl))).drop 1
      = d ++ '.' :: tl := by
    simp
  rw [h1]
  have h2 : (d ++ '.' :: tl).reverse = tl.reverse ++ '.' :: d.reverse := by simp
  rw [h2]
  have h3 : ∀ c ∈ tl.reverse, (c != '.') = true := by
    intro c hc
    exact ne_dot_of_mailTld htl c (List.mem_reverse.mp hc)
  rw [List.dropWhile_append_of_pos h3]
  simp

/-- An accepted text has exactly one `@`. -/
theorem count_at_eq_one {l d tl : List Char} (hl : mailLabel l = true)
    (hd : mailLabel d = true) (htl : mailTld tl = true) :
    (l ++ '@' :: (d ++ '.' :: tl)).count '@' = 1 := by
  have h0 : ∀ w : List Char, (∀ c ∈ w, (c != '@') = true) → w.count '@' = 0 := by
    intro w hw
    rw [List.count_eq_zero]
    intro hmem
    have := hw '@' hmem
    simp at this
  have h1 := h0 l (ne_at_of_mailLabel hl)
  have h2 := h0 d (ne_at_of_mailLabel hd)
  have h3 : tl.count '@' = 0 := by
    rw [List.count_eq_zero]
    intro hmem
    exact absurd ((mailTld_iff.mp htl).2.2 '@' hmem) (by decide)
  simp [List.count_cons, h1, h2, h3]

/-- A text of `mailLabel` has at least three characters. -/
theorem length_of_mailLabel {l : List Char} (hl : mailLabel l = true) : 3 ≤ l.length := by
  unfold mailLabel at hl
  simp only [Bool.and_eq_true, decide_eq_true_eq] at hl
  exact hl.1.1.1

/-- The accepted strings, as strings: a label, "@", a label, ".", two to six letters. -/
theorem Email_Ok_decomp (s : String) :
    Email.Ok s = true ↔
      ∃ l d t : String, s = l ++ "@" ++ d ++ "." ++ t
        ∧ mailLabel l.data = true ∧ mailLabel d.data = true ∧ mailTld t.data = true := by
  unfold Email.Ok
  rw [rxMail_MatchString]
  constructor
  · rintro ⟨l, d, tl, hdata, hl, hd, htl⟩
    refine ⟨⟨l⟩, ⟨d⟩, ⟨tl⟩, ?_, hl, hd, htl⟩
    apply String.ext
    rw [hdata]
    simp [String.data_append]
  · rintro ⟨l, d, t, rfl, hl, hd, htl⟩
    refine ⟨l.data, d.data, t.data, ?_, hl, hd, htl⟩
    simp [String.data_append]

/-- C16: "user@example.com" and "HtH8O@example.com" are valid, and a string
without `@`, such as "example.com", is not: `Ok` is false and `Validate`
returns the error "not valid email". -/
theorem Email_examples (s : String) (h : '@' ∉ s.data) :
    Email.Ok "user@example.com" = true ∧ Email.Validate "user@example.com" = none
      ∧ Email.Ok "HtH8O@example.com" = true ∧ Email.Validate "HtH8O@example.com" = none
      ∧ Email.Ok s = false ∧ Email.Validate s = some "not valid email" := by
  have h1 : rxMail.MatchString "user@example.com" = true :=
    (rxMail_MatchString _).mpr
      ⟨"user".data, "example".data, "com".data, by decide, by decide, by decide, by decide⟩
  have h2 : rxMail.MatchString "HtH8O@example.com" = true :=
    (rxMail_MatchString _).mpr
      ⟨"HtH8O".data, "example".data, "com".data, by decide, by decide, by decide, by decide⟩
  have h3 : rxMail.MatchString s = false := by
    rw [Bool.eq_false_iff]
    intro hm
    obtain ⟨l, d, tl, hdata, -, -, -⟩ := (rxMail_MatchString s).mp hm
    apply h
    rw [hdata]
    simp
  unfold Email.Ok Email.Validate errorsNew
  rw [h1, h2, h3]
  exact ⟨rfl, rfl, rfl, rfl, rfl, rfl⟩

/-- A run of `Email_examples`: "example.com" has no `@` and is not valid. -/
theorem Email_examples_witness :
    Email.Ok "example.com" = false ∧ Email.Validate "example.com" = some "not valid email" :=
  let h := Email_examples "example.com" (by decide)
  ⟨h.2.2.2.2.1, h.2.2.2.2.2⟩

/-- C20: `Email.Ok` is true if and only if the string is a label, "@", a
label, "." and two to six ASCII letters, a label being a string of three or
more ASCII letters, digits, `-` and `.` that begins and ends with a letter or a
digit. So an accepted address has exactly one `@`, at least three characters
before it and at least three between it and the last dot; "ab@example.com" and
"user@ab.com" are rejected. -/
theorem Email_Ok_iff (s : String) :
    (Email.Ok s = true ↔
        ∃ l d t : String, s = l ++ "@" ++ d ++ "." ++ t
          ∧ mailLabel l.data = true ∧ mailLabel d.data = true ∧ mailTld t.data = true)
      ∧ (Email.Ok s = true →
          s.data.count '@' = 1 ∧ 3 ≤ (mailLocal s.data).length
            ∧ 3 ≤ (mailDomain s.data).length)
      ∧ Email.Ok "ab@example.com" = false
      ∧ Email.Ok "user@ab.com" = false := by
  have hcons : ∀ t : String, Email.Ok t = true →
      t.data.count '@' = 1 ∧ mailLabel (mailLocal t.data) = true
        ∧ mailLabel (mailDomain t.data) = true := by
    intro t ht
    unfold Email.Ok at ht
    obtain ⟨l, d, tl, hdata, hl, hd, htl⟩ := (rxMail_MatchString t).mp ht
    rw [hdata, mailLocal_eq hl, mailDomain_eq hl htl]
    exact ⟨count_at_eq_one hl hd htl, hl, hd⟩
  refine ⟨Email_Ok_decomp s, ?_, ?_, ?_⟩
  · intro hs
    obtain ⟨h1, h2, h3⟩ := hcons s hs
    exact ⟨h1, length_of_mailLabel h2, length_of_mailLabel h3⟩
  · rw [Bool.eq_false_iff]
    intro hm
    exact absurd (hcons _ hm).2.1 (by decide)
  · rw [Bool.eq_false_iff]
    intro hm
    exact absurd (hcons _ hm).2.2 (by decide)

/-- A run of `Email_Ok_iff`: "user@example.com" is accepted, with one `@`. -/
theorem Email_Ok_iff_witness :
    Email.Ok "user@example.com" = true ∧ "user@example.com".data.count '@' = 1
      ∧ 3 ≤ (mailLocal "user@example.com".data).length
      ∧ 3 ≤ (mailDomain "user@example.com".data).length :=
  let h := Email_Ok_iff "user@example.com"
  let hok : Email.Ok "user@example.com" = true :=
    h.1.mpr ⟨"user", "example", "com", by decide, by decide, by decide, by decide⟩
  ⟨hok, h.2.1 hok⟩

/-! ## Paginate, and SetNCount again -/

/-- C11: after `Paginate(r)` the field `Rows` is `r`, whatever it held before,
and every other field is unchanged. -/
theorem Paginate_frame {α : Type} (p : GPaginator α) (r : α) :
    (p.Paginate r).Rows = r
      ∧ (p.Paginate r).Limit = p.Limit
      ∧ (p.Paginate r).Page = p.Page
      ∧ (p.Paginate r).«Sort» = p.«Sort»
      ∧ (p.Paginate r).Order = p.Order
      ∧ (p.Paginate r).Offset = p.Offset
      ∧ (p.Paginate r).TotalRows = p.TotalRows
      ∧ (p.Paginate r).TotalPages = p.TotalPages :=
  ⟨rfl, rfl, rfl, rfl, rfl, rfl, rfl, rfl⟩

/-- C12: for every total, negative ones included, `SetNCount` returns no error,
sets `TotalRows` to the total and leaves `Rows` unchanged. -/
theorem SetNCount_no_error {α : Type} (p : GPaginator α) (total : Int) :
    (p.SetNCount total).2 = none
      ∧ (p.SetNCount total).1.TotalRows = total
      ∧ (p.SetNCount total).1.Rows = p.Rows := by
  refine ⟨rfl, ?_, ?_⟩
  · rw [SetNCount_fields]
  · rw [SetNCount_fields]

/-- C18: `SetNCount(t1)` followed by `SetNCount(t2)` leaves the state, and
returns the error, of `SetNCount(t2)` alone; so `SetNCount(t)` twice is
`SetNCount(t)` once. -/
theorem SetNCount_recomputes {α : Type} (p : GPaginator α) (t1 t2 : Int) :
    (p.SetNCount t1).1.SetNCount t2 = p.SetNCount t2
      ∧ (p.SetNCount t1).1.SetNCount t1 = p.SetNCount t1 := by
  have key : ∀ a b : Int, (p.SetNCount a).1.SetNCount b = p.SetNCount b := by
    intro a b
    refine Prod.ext ?_ rfl
    rw [SetNCount_fields (p.SetNCount a).1 b, SetNCount_fields p b, SetNCount_fields p a]
    simp only [len_lt_one_iff]
    by_cases h1 : p.Limit ≤ 0 <;> by_cases h2 : p.Page ≤ 0 <;>
      by_cases h3 : p.«Sort» = "" <;> by_cases h4 : p.Order = "" <;>
      simp [h1, h2, h3, h4]
  exact ⟨key t1 t2, key t1 t1⟩

/-- The ceiling of `t / l` by integer division. -/
theorem ceil_div_eq_ediv (t : ℤ) {l : ℤ} (hl1 : 1 ≤ l) :
    ⌈(t : ℚ) / (l : ℚ)⌉ = (t + l - 1) / l := by
  have hl0 : 0 < l := by omega
  obtain ⟨hle, hleast⟩ := ceil_div_least t hl1
  apply le_antisymm
  · apply hleast
    have h := Int.lt_ediv_add_one_mul_self (t + l - 1) hl0
    have h2 : ((t + l - 1) / l + 1) * l = (t + l - 1) / l * l + l := by ring
    rw [h2] at h
    omega
  · have h : (t + l - 1) / l < ⌈(t : ℚ) / (l : ℚ)⌉ + 1 := by
      apply Int.ediv_lt_of_lt_mul hl0
      have h2 : (⌈(t : ℚ) / (l : ℚ)⌉ + 1) * l = ⌈(t : ℚ) / (l : ℚ)⌉ * l + l := by ring
      rw [h2]
      omega
    omega

/-- C19: for `0 <= total <= 2 ^ 53` and a `Limit >= 1` (an `int`), the
expression `int(math.Ceil(float64(total) / float64(Limit)))`, which `SetNCount`
stores in `TotalPages`, is the exact integer ceiling of `total / Limit`: the
rounding of the quotient costs no page and adds none. -/
theorem totalPages_float_exact {α : Type} (p : GPaginator α) (total : Int)
    (h0 : 0 ≤ total) (h53 : total ≤ 2 ^ 53) (hL1 : 1 ≤ p.Limit) (hL : p.Limit ≤ maxInt) :
    f64ToInt (f64Ceil (f64Div (f64OfInt total) (f64OfInt p.Limit)))
        = (total + p.Limit - 1) / p.Limit
      ∧ (p.SetNCount total).1.TotalPages
        = f64ToInt (f64Ceil (f64Div (f64OfInt total) (f64OfInt p.Limit)))
      ∧ ((p.SetNCount total).1.TotalPages - 1) * p.Limit < total
      ∧ total ≤ (p.SetNCount total).1.TotalPages * p.Limit := by
  have hexact := totalPages_exact h0 h53 hL1 hL
  have hTP : (p.SetNCount total).1.TotalPages
      = f64ToInt (f64Ceil (f64Div (f64OfInt total) (f64OfInt p.Limit))) := by
    rw [SetNCount_TotalPages_eq, if_neg (by omega)]
  obtain ⟨hle, hleast⟩ := ceil_div_least total hL1
  refine ⟨?_, hTP, ?_, ?_⟩
  · rw [hexact, ceil_div_eq_ediv total hL1]
  · rw [hTP, hexact]
    by_contra hcon
    push_neg at hcon
    have := hleast _ hcon
    omega
  · rw [hTP, hexact]
    exact hle

/-- A run of `totalPages_float_exact`: `2 ^ 53` rows in pages of 3 are
3002399751580331 pages. -/
theorem totalPages_float_exact_witness :
    (({ GPaginator.zero () with Limit := 3 } : GPaginator Unit).SetNCount
        9007199254740992).1.TotalPages = 3002399751580331 := by
  have h := totalPages_float_exact ({ GPaginator.zero () with Limit := 3 } : GPaginator Unit)
    9007199254740992 (by decide) (by decide) (by decide) (by decide)
  rw [h.2.1, h.1]
  decide

end Plank
